import Mathlib

/-!
Verification of the DeepRareAgent orchestration core.

This file is a shallow embedding, in Lean 4, of the parts of the
DeepRareAgent repository that the specification's claims are about:

* the summarizer's evidence-reference resolver
  (`DeepRareAgent/p03summary_agent.py`),
* the per-expert legacy reference pre-processing
  (`DeepRareAgent/utils/report_utils.py`),
* the MDT reviewer pass, router and fan-out loop
  (`DeepRareAgent/p02_mdt/export_reviewer_node.py`, `nodes.py`),
* the per-expert deep-research runner node
  (`DeepRareAgent/p02_mdt/builddeepexportnode.py`),
* the patient-facts identifier generator and upsert tool
  (`DeepRareAgent/tools/patientinfo.py`).

Modelling conventions:
* Python `dict`s become association lists (`List (String × β)`) with
  first-match lookup; insertion of a fresh key appends at the end,
  matching CPython's insertion-ordered dicts.
* Python strings become Lean `String`; the regex character class `\d`
  is modelled as ASCII decimal digits (`Char.isDigit`).
* LLM calls, tool calls and the random generator are modelled as
  explicit oracles (function parameters), so every definition is a
  pure, executable Lean function.
* Exceptions become `Except` results.
-/

namespace DeepRare

/-! ## Association-list utilities (Python `dict` semantics) -/

/-- First-match lookup in an association list (Python `d[k]` / `k in d`). -/
def getKey? {β : Type} : List (String × β) → String → Option β
  | [], _ => none
  | (k', v) :: t, k => if k' = k then some v else getKey? t k

/-- Python `d[k] = v`: replace the value at the first occurrence of the key,
keeping its position, or append a fresh key at the end. -/
def setKey {β : Type} : List (String × β) → String → β → List (String × β)
  | [], k, v => [(k, v)]
  | (k', v') :: t, k, v =>
    if k' = k then (k', v) :: t else (k', v') :: setKey t k v

@[simp] theorem getKey_nil {β : Type} (k : String) :
    getKey? ([] : List (String × β)) k = none := rfl

@[simp] theorem getKey_cons {β : Type} (k' : String) (v : β) (t : List (String × β)) (k : String) :
    getKey? ((k', v) :: t) k = if k' = k then some v else getKey? t k := rfl

theorem getKey_setKey_ne {β : Type} (l : List (String × β)) (k k' : String) (v : β)
    (h : k ≠ k') : getKey? (setKey l k v) k' = getKey? l k' := by
  induction l with
  | nil => simp [setKey, getKey?, h]
  | cons p t ih =>
    obtain ⟨k₀, v₀⟩ := p
    by_cases hk : k₀ = k
    · subst hk
      simp [setKey, getKey?, h]
    · simp [setKey, hk, getKey?, ih]

theorem getKey_setKey_self {β : Type} (l : List (String × β)) (k : String) (v : β) :
    getKey? (setKey l k v) k = some v := by
  induction l with
  | nil => simp [setKey, getKey?]
  | cons p t ih =>
    obtain ⟨k₀, v₀⟩ := p
    by_cases hk : k₀ = k
    · subst hk; simp [setKey, getKey?]
    · simp [setKey, hk, getKey?, ih]

/-! ## The reference scanner

`p03summary_agent._resolve_evidence_references` scans the report with the
Python regex `<ref>([a-zA-Z0-9_]+\.\d+)</ref>` (`re.findall`), and
`report_utils.process_expert_report_references` scans with
`<ref>(\d+)</ref>`.  Both are embedded as explicit left-to-right
scanners: at each position try to match the pattern; on success emit the
capture group and continue after the match, otherwise advance one
character.  This is exactly `re.findall`'s non-overlapping semantics for
these patterns (the patterns are deterministic: each `+` is a maximal
run bounded by a non-member character). -/

/-- The identifier alphabet `[a-zA-Z0-9_]`. -/
def isIdentChar (c : Char) : Bool := c.isAlphanum || c = '_'

/-- The literal characters of `<ref>`. -/
def refOpen : List Char := ['<', 'r', 'e', 'f', '>']

/-- The literal characters of `</ref>`. -/
def refClose : List Char := ['<', '/', 'r', 'e', 'f', '>']

/-- Match a literal character list at the front of the input, returning the
remainder on success. -/
def stripLit : List Char → List Char → Option (List Char)
  | [], cs => some cs
  | _ :: _, [] => none
  | p :: ps, c :: cs => if c = p then stripLit ps cs else none

/-- Try to match `<ref>ident.digits</ref>` at the head of the input;
on success return the capture group `ident.digits` and the remainder. -/
def parseRefAt (cs : List Char) : Option (List Char × List Char) :=
  match stripLit refOpen cs with
  | none => none
  | some r1 =>
    let ident := r1.takeWhile isIdentChar
    match r1.dropWhile isIdentChar with
    | '.' :: r3 =>
      if ident.isEmpty then none
      else
        let ds := r3.takeWhile Char.isDigit
        if ds.isEmpty then none
        else
          match stripLit refClose (r3.dropWhile Char.isDigit) with
          | none => none
          | some r5 => some (ident ++ '.' :: ds, r5)
    | _ => none

/-- Fuel-driven scanning loop (fuel bounds the number of scan steps; it is
always called with the input length, which suffices because every step
consumes at least one character). -/
def refsGo : Nat → List Char → List String
  | 0, _ => []
  | _ + 1, [] => []
  | fuel + 1, c :: cs =>
    match parseRefAt (c :: cs) with
    | some (k, rest) => String.mk k :: refsGo fuel rest
    | none => refsGo fuel cs

/-- All capture groups of `<ref>([a-zA-Z0-9_]+\.\d+)</ref>` in scan order
(Python `ref_pattern.findall(report_text)`). -/
def findRefs (cs : List Char) : List String := refsGo cs.length cs

/-- Try to match `<ref>digits</ref>` at the head of the input. -/
def parseNumRefAt (cs : List Char) : Option (List Char × List Char) :=
  match stripLit refOpen cs with
  | none => none
  | some r1 =>
    let ds := r1.takeWhile Char.isDigit
    if ds.isEmpty then none
    else
      match stripLit refClose (r1.dropWhile Char.isDigit) with
      | none => none
      | some r5 => some (ds, r5)

/-- Fuel-driven scanning loop for the numeric pattern. -/
def numRefsGo : Nat → List Char → List String
  | 0, _ => []
  | _ + 1, [] => []
  | fuel + 1, c :: cs =>
    match parseNumRefAt (c :: cs) with
    | some (k, rest) => String.mk k :: numRefsGo fuel rest
    | none => numRefsGo fuel cs

/-- All capture groups of `<ref>(\d+)</ref>` in scan order. -/
def findNumRefs (cs : List Char) : List String := numRefsGo cs.length cs

/-! ## De-duplication preserving first appearance -/

/-- The `seen`-set loop of `_resolve_evidence_references`: keep the first
occurrence of each key, preserving order. -/
def dedupFirst (seen : List String) : List String → List String
  | [] => []
  | x :: xs => if x ∈ seen then dedupFirst seen xs else x :: dedupFirst (x :: seen) xs

theorem mem_dedupFirst (seen : List String) (l : List String) (k : String) :
    k ∈ dedupFirst seen l ↔ k ∈ l ∧ k ∉ seen := by
  induction l generalizing seen with
  | nil => simp [dedupFirst]
  | cons x xs ih =>
    by_cases hx : x ∈ seen
    · simp only [dedupFirst, if_pos hx, ih, List.mem_cons]
      constructor
      · rintro ⟨h1, h2⟩; exact ⟨Or.inr h1, h2⟩
      · rintro ⟨h1 | h1, h2⟩
        · exact absurd (h1 ▸ hx) h2
        · exact ⟨h1, h2⟩
    · simp only [dedupFirst, if_neg hx, List.mem_cons, ih]
      constructor
      · rintro (rfl | ⟨h1, h2⟩)
        · exact ⟨Or.inl rfl, hx⟩
        · refine ⟨Or.inr h1, fun hc => h2 ?_⟩
          simp [List.mem_cons, hc]
      · rintro ⟨rfl | h1, h2⟩
        · exact Or.inl rfl
        · by_cases hxk : k = x
          · exact Or.inl hxk
          · refine Or.inr ⟨h1, fun hc => ?_⟩
            rcases hc with h | h
            · exact hxk h
            · exact h2 h

/-! ## Data model (`DeepRareAgent/schema.py`) -/

/-- Message roles used by the orchestrator (`HumanMessage`, `AIMessage`,
`ToolMessage`). -/
inductive Role where
  | human
  | ai
  | tool
deriving DecidableEq, Repr

/-- A chat message: role plus textual content. -/
structure Msg where
  role : Role
  content : String
deriving DecidableEq, Repr

/-- `HumanMessage(content=s)`. -/
def humanMsg (s : String) : Msg := ⟨Role.human, s⟩

/-- `AIMessage(content=s)`. -/
def aiMsg (s : String) : Msg := ⟨Role.ai, s⟩

/-- `ExpertGroupState` (schema.py): the private state of one expert group. -/
structure ExpertSlot where
  group_id : String
  messages : List Msg
  times_deep_diagnosis : Nat
  report : String
  evidences : List String
  is_satisfied : Bool
  reinvestigate_reason : Option String
  has_error : Bool
deriving DecidableEq, Repr

/-- `SharedBlackboard` (schema.py). -/
structure Blackboard where
  published_reports : List (String × String)
  conflicts : List (String × String)
  common_understandings : List (String × String)
deriving DecidableEq, Repr

/-- `MDTGraphState` (schema.py); the outer `messages` stream uses the
`add_messages` reducer, so node outputs append to it. -/
structure MDTState where
  messages : List Msg
  patient_portrait : String
  expert_pool : List (String × ExpertSlot)
  blackboard : Blackboard
  round_count : Nat
  max_rounds : Nat
  consensus_reached : Bool
deriving DecidableEq, Repr

/-! ## Summarizer: reference resolution (`p03summary_agent.py`) -/

/-- The separator of the appended evidence section
(`"\n\n#### 引用证据详情\n"`), shared by `_resolve_evidence_references`
and `process_expert_report_references`. -/
def evidenceSectionHeader : String := "\n\n#### 引用证据详情\n"

/-- `_resolve_evidence_references(report_text, evidence_mapping)`:
resolve `<ref>group_id.index</ref>` tags by appending a trailing
evidence section; unknown keys are skipped (logged only). -/
def _resolve_evidence_references (report_text : String)
    (evidence_mapping : List (String × String)) : String :=
  if report_text = "" ∨ evidence_mapping = [] then report_text
  else
    let found := findRefs report_text.data
    if found = [] then report_text
    else
      let ref_keys := dedupFirst [] found
      let extracted := ref_keys.filterMap fun k =>
        (getKey? evidence_mapping k).map fun e => "[" ++ k ++ "] " ++ e
      if extracted = [] then report_text
      else report_text ++ evidenceSectionHeader ++ String.intercalate "\n" extracted

/-- Specification-side description of the resolver's section body: one line
`[key] evidence` per distinct referenced key (first-appearance order) that
is present in the mapping. -/
def citedLines (t : String) (m : List (String × String)) : List String :=
  (dedupFirst [] (findRefs t.data)).filterMap fun k =>
    (getKey? m k).map fun e => "[" ++ k ++ "] " ++ e

theorem filterMap_getKey_nil (keys : List String) :
    keys.filterMap (fun k => (getKey? ([] : List (String × String)) k).map
      (fun e => "[" ++ k ++ "] " ++ e)) = [] := by
  induction keys with
  | nil => rfl
  | cons k t ih => simp [getKey?, ih]

/-- Characterization of `_resolve_evidence_references`: the result is the
input text unchanged when no referenced key is in the mapping, and
otherwise the input text followed by the evidence section built from
`citedLines`. -/
theorem resolve_characterization (t : String) (m : List (String × String)) :
    _resolve_evidence_references t m =
      if citedLines t m = [] then t
      else t ++ evidenceSectionHeader ++ String.intercalate "\n" (citedLines t m) := by
  by_cases ht : t = ""
  · subst ht
    have h1 : _resolve_evidence_references "" m = "" := by
      unfold _resolve_evidence_references
      rw [if_pos (Or.inl rfl)]
    have h2 : citedLines "" m = [] := rfl
    rw [h1, h2, if_pos rfl]
  · by_cases hm : m = []
    · subst hm
      have h1 : _resolve_evidence_references t [] = t := by
        unfold _resolve_evidence_references
        rw [if_pos (Or.inr rfl)]
      have h2 : citedLines t [] = [] := filterMap_getKey_nil _
      rw [h1, h2, if_pos rfl]
    · have hcond : ¬(t = "" ∨ m = []) := by tauto
      by_cases hmat : findRefs t.data = []
      · have h2 : citedLines t m = [] := by
          unfold citedLines
          rw [hmat]
          rfl
        unfold _resolve_evidence_references
        rw [if_neg hcond]
        simp only [hmat, h2]
        simp
      · unfold _resolve_evidence_references
        rw [if_neg hcond]
        simp only [if_neg hmat]
        unfold citedLines
        by_cases hext : (dedupFirst [] (findRefs t.data)).filterMap
            (fun k => (getKey? m k).map fun e => "[" ++ k ++ "] " ++ e) = []
        · rw [if_pos hext]
        · rw [if_neg hext]

/-! ## Per-expert legacy numeric references (`utils/report_utils.py`) -/

/-- Decimal digit characters to a natural number (`int(...)` on a `\d+`
match). -/
def digitsToNat (cs : List Char) : Nat :=
  cs.foldl (fun n c => n * 10 + (c.toNat - '0'.toNat)) 0

/-- Insert into a strictly ascending list, dropping duplicates. -/
def insertSortedNodup (n : Nat) : List Nat → List Nat
  | [] => [n]
  | m :: t =>
    if n < m then n :: m :: t
    else if n = m then m :: t
    else m :: insertSortedNodup n t

/-- `sorted(list(set(...)))`: the ascending enumeration of the distinct
elements. -/
def sortedDedup (l : List Nat) : List Nat := l.foldr insertSortedNodup []

/-- `process_expert_report_references(report_text, evidences)`: resolve
legacy numeric `<ref>N</ref>` tags (1-based into `evidences`) by appending
a per-expert evidence section.  The tags themselves are left in place. -/
def process_expert_report_references (report_text : String)
    (evidences : List String) : String :=
  if report_text = "" ∨ evidences = [] then report_text
  else
    let found := findNumRefs report_text.data
    if found = [] then report_text
    else
      let ref_ids := sortedDedup (found.map fun s => digitsToNat s.data)
      let extracted := ref_ids.filterMap fun n =>
        if 1 ≤ n ∧ n ≤ evidences.length then
          some ("[" ++ toString n ++ "] " ++ evidences.getD (n - 1) "")
        else none
      if extracted = [] then report_text
      else report_text ++ evidenceSectionHeader ++ String.intercalate "\n" extracted

/-- Specification-side description of the per-expert section body: one line
`[N] evidence` per distinct in-range referenced index, ascending. -/
def numCitedLines (t : String) (evidences : List String) : List String :=
  (sortedDedup ((findNumRefs t.data).map fun s => digitsToNat s.data)).filterMap fun n =>
    if 1 ≤ n ∧ n ≤ evidences.length then
      some ("[" ++ toString n ++ "] " ++ evidences.getD (n - 1) "")
    else none

/-- Characterization of `process_expert_report_references`: the input text,
unchanged when no referenced index is in range, otherwise followed by the
per-expert evidence section; in both cases the `<ref>N</ref>` tags remain
in the body. -/
theorem filterMap_inRange_nil (ids : List Nat) :
    ids.filterMap (fun n =>
      if 1 ≤ n ∧ n ≤ ([] : List String).length then
        some ("[" ++ toString n ++ "] " ++ ([] : List String).getD (n - 1) "")
      else none) = [] := by
  induction ids with
  | nil => rfl
  | cons i t ih =>
    have hc : ¬ (1 ≤ i ∧ i ≤ ([] : List String).length) := by
      simp only [List.length_nil]
      omega
    simp only [List.filterMap_cons, if_neg hc, ih]

theorem process_characterization (t : String) (evidences : List String) :
    process_expert_report_references t evidences =
      if numCitedLines t evidences = [] then t
      else t ++ evidenceSectionHeader ++ String.intercalate "\n" (numCitedLines t evidences) := by
  by_cases ht : t = ""
  · subst ht
    have h1 : process_expert_report_references "" evidences = "" := by
      unfold process_expert_report_references
      rw [if_pos (Or.inl rfl)]
    have h2 : numCitedLines "" evidences = [] := rfl
    rw [h1, h2, if_pos rfl]
  · by_cases hev : evidences = []
    · subst hev
      have h1 : process_expert_report_references t [] = t := by
        unfold process_expert_report_references
        rw [if_pos (Or.inr rfl)]
      have h2 : numCitedLines t [] = [] := filterMap_inRange_nil _
      rw [h1, h2, if_pos rfl]
    · have hcond : ¬(t = "" ∨ evidences = []) := by tauto
      by_cases hmat : findNumRefs t.data = []
      · have h2 : numCitedLines t evidences = [] := by
          unfold numCitedLines
          rw [hmat]
          rfl
        unfold process_expert_report_references
        rw [if_neg hcond]
        simp only [hmat, h2]
        simp
      · unfold process_expert_report_references
        rw [if_neg hcond]
        simp only [if_neg hmat]
        unfold numCitedLines
        by_cases hext : (sortedDedup ((findNumRefs t.data).map fun s => digitsToNat s.data)).filterMap
            (fun n => if 1 ≤ n ∧ n ≤ evidences.length then
              some ("[" ++ toString n ++ "] " ++ evidences.getD (n - 1) "") else none) = []
        · rw [if_pos hext]
        · rw [if_neg hext]

/-- The 60-character `=` separator line of `_format_expert_reports`. -/
def sepLine : String := String.mk (List.replicate 60 '=')

/-- `_format_expert_reports(reports, expert_pool)`: pre-process each
published report against its own expert's evidences, then concatenate the
reports with per-group separators. -/
def _format_expert_reports (reports : List (String × String))
    (expert_pool : List (String × ExpertSlot)) : String :=
  String.intercalate "\n" (reports.map fun p =>
    let evidences := match getKey? expert_pool p.1 with
      | some e => e.evidences
      | none => []
    let report := if evidences ≠ [] then process_expert_report_references p.2 evidences else p.2
    "\n" ++ sepLine ++ "\n专家组: " ++ p.1 ++ "\n" ++ sepLine ++ "\n\n" ++ report ++ "\n")

/-! ## Summarizer: evidence mapping (`summary_node`) -/

/-- Lexicographic order on character lists (Python string comparison by
code points). -/
def lexLe : List Char → List Char → Bool
  | [], _ => true
  | _ :: _, [] => false
  | a :: as, b :: bs => if a < b then true else if b < a then false else lexLe as bs

/-- `a <= b` on strings, by code points. -/
def strLe (a b : String) : Bool := lexLe a.data b.data

/-- Insertion into a `strLe`-sorted list (stable). -/
def insertStr (s : String) : List String → List String
  | [] => [s]
  | x :: t => if strLe s x then s :: x :: t else x :: insertStr s t

/-- `sorted(keys)`: ascending by code points. -/
def sortStrings (l : List String) : List String := l.foldr insertStr []

/-- The stable evidence mapping of `summary_node`: enumerate
`published_reports` by ascending `group_id`; for each group, key its
evidences as `group_id.index` with `index` starting at 1. -/
def buildEvidenceMapping (reports : List (String × String))
    (expert_pool : List (String × ExpertSlot)) : List (String × String) :=
  (sortStrings (reports.map Prod.fst)).foldl (fun acc gid =>
    let evidences := match getKey? expert_pool gid with
      | some e => e.evidences
      | none => []
    (List.range evidences.length).foldl (fun acc2 idx =>
      setKey acc2 (gid ++ "." ++ toString (idx + 1)) (evidences.getD idx "")) acc) []

/-- The post-LLM tail of `summary_node`: fail when there are no published
reports, otherwise resolve the references of the LLM's output against the
stable evidence mapping (the LLM call itself is the oracle argument
`llmOutput`). -/
def summary_node (reports : List (String × String))
    (expert_pool : List (String × ExpertSlot)) (llmOutput : String) :
    Except String String :=
  if reports = [] then Except.error "错误：未找到任何专家报告，无法生成综合诊断"
  else
    let mapping := buildEvidenceMapping reports expert_pool
    Except.ok (if mapping = [] then llmOutput
      else _resolve_evidence_references llmOutput mapping)

/-! ## Triage node (`p02_mdt/nodes.py`, `triage_to_mdt_node`)

The patient portrait is the output of the `patient_info_to_text` tool and
the dialogue summary comes from the pre-diagnosis stage; both are passed
in as parameters.  The triage initializer does not set the
`times_deep_diagnosis` key; the runner reads it with default 0, which the
embedding represents by initializing the field to 0. -/

def triage_to_mdt_node (groupIds : List String) (max_rounds : Nat)
    (portrait dialogue : String) : MDTState :=
  let initial :=
    if dialogue ≠ "" then
      "研究和讨论的患者病例信息如下:\n\n" ++ portrait ++
        "\n\n---\n\n**预诊问诊对话总结：**\n" ++ dialogue
    else "研究和讨论的患者病例信息如下:\n\n" ++ portrait
  { messages := [aiMsg initial,
      aiMsg ("[LAB] 正在初始化多专家会诊系统，已分配 " ++ toString groupIds.length ++ " 个专家组...")]
    patient_portrait := portrait
    expert_pool := groupIds.map fun gid =>
      (gid, { group_id := gid, messages := [aiMsg initial], times_deep_diagnosis := 0,
              report := "等待诊断启动...", evidences := [], is_satisfied := false,
              reinvestigate_reason := none, has_error := false })
    blackboard := { published_reports := [], conflicts := [], common_understandings := [] }
    round_count := 1
    max_rounds := max_rounds
    consensus_reached := false }

/-! ## Expert runner (`p02_mdt/builddeepexportnode.py`, `deep_export_node`)

The inner deep agent is the oracle: on a normal return it yields the last
assistant message and the produced evidences, and a raised exception is
the `exc` case.  The node's return value is a LangGraph state delta:
`none` models `return {}` (no update); `some (slot, msgs)` models an
update replacing the expert's slot and appending `msgs` to the outer
message stream. -/

/-- The outcome of one inner deep-agent invocation. -/
inductive RunOutcome where
  | ok (lastMsg : String) (evidences : List String)
  | exc (err : String)

def deep_export_node (gid : String) (slot : ExpertSlot) (outcome : RunOutcome) :
    Option (ExpertSlot × List Msg) :=
  if slot.is_satisfied then none
  else
    match outcome with
    | RunOutcome.ok last evs =>
      some ({ slot with
                messages := slot.messages ++ [aiMsg last],
                evidences := evs,
                has_error := false,
                report := last,
                times_deep_diagnosis := slot.times_deep_diagnosis + 1 }, [])
    | RunOutcome.exc e =>
      let base := "⚠️ 专家组 " ++ gid ++ " 执行出错"
      let errMsg := if e.length < 100 then base ++ ": " ++ e else base
      some ({ slot with
                has_error := true,
                report := "执行异常: " ++ e,
                times_deep_diagnosis := slot.times_deep_diagnosis + 1 }, [aiMsg errMsg])

/-- The fan-out stage: every expert node is dispatched (the graph wires
`fan_out` to every expert unconditionally); each node's slot delta is
merged back into the pool by per-key replacement (`operator.ior`). -/
def fanOutPool (outcomes : String → RunOutcome) (pool : List (String × ExpertSlot)) :
    List (String × ExpertSlot) :=
  pool.map fun p =>
    match deep_export_node p.1 p.2 (outcomes p.1) with
    | none => p
    | some (e', _) => (p.1, e')

/-! ## Reviewer (`p02_mdt/export_reviewer_node.py`) -/

/-- Python `list.insert(n, x)` (clamping semantics). -/
def pyInsert {α : Type} (n : Nat) (x : α) (l : List α) : List α :=
  l.take n ++ x :: l.drop n

/-- Content of the patient-portrait message injected by the reviewer. -/
def portraitMsgContent (portrait : String) : String :=
  "诊断的信息如下:\n\n" ++ portrait

/-- The patient-portrait message injected at position 1. -/
def portraitMsg (portrait : String) : Msg := humanMsg (portraitMsgContent portrait)

/-- The delimited block of all other experts' reports for group `gid`. -/
def otherReportsBlock (pool : List (String × ExpertSlot)) (gid : String) : String :=
  (pool.filter fun p => p.1 ≠ gid).foldl
    (fun acc p => acc ++ "===========" ++ p.1 ++ "================\n " ++ p.2.report ++ "\n") ""

/-- Content of the "other experts' reports" message. -/
def otherMsgContent (other : String) : String :=
  "你已经完成了审核，现在给你提供其他专家的报告，一共有" ++ toString other.length ++
    "份报告，分别如下:\n\n" ++ other

/-- The reviewer's message surgery on one reviewed expert: insert the
portrait at position 1, then append the peer-report block and the
reviewer instruction prompt `rp` (the prompt file's content). -/
def reviewInjectMsgs (portrait rp other : String) (msgs : List Msg) : List Msg :=
  pyInsert 1 (portraitMsg portrait) msgs ++ [humanMsg (otherMsgContent other), humanMsg rp]

/-- The publish step of `build_reviewer_messages`: for every non-error,
non-satisfied expert whose group id is not yet on the blackboard, copy
its current report there; already-published groups are left as they are.
-/
def publishReports (pool : List (String × ExpertSlot))
    (published : List (String × String)) : List (String × String) :=
  pool.foldl
    (fun acc p =>
      if p.2.has_error || p.2.is_satisfied then acc
      else if (getKey? acc p.1).isSome then acc
      else acc ++ [(p.1, p.2.report)])
    published

/-- `build_reviewer_messages(state)`: publish first-time reports of
non-error, non-satisfied experts to the blackboard, then inject the
review messages into each such expert's private message list.  Returns
the updated state and the ids needing review. -/
def build_reviewer_messages (rp : String) (s : MDTState) : MDTState × List String :=
  let published := publishReports s.expert_pool s.blackboard.published_reports
  let pool := s.expert_pool.map fun p =>
    if p.2.has_error || p.2.is_satisfied then p
    else (p.1, { p.2 with
      messages := reviewInjectMsgs s.patient_portrait rp
        (otherReportsBlock s.expert_pool p.1) p.2.messages })
  ({ s with
      blackboard := { s.blackboard with published_reports := published },
      expert_pool := pool },
   (s.expert_pool.filter fun p => !(p.2.has_error || p.2.is_satisfied)).map Prod.fst)

/-- The outcome of one expert's review call
(`process_single_expert_review`): `failure` is the caught-exception
fallback (which carries `has_error`), `ok` is a parsed verdict plus the
raw response content. -/
inductive ReviewOutcome where
  | failure
  | ok (is_satisfied : Bool) (reinvestigate_reason : String) (response : String)

/-- Content of the re-investigation instruction appended to unsatisfied
experts. -/
def reinvestigateMsgContent (reason : String) : String :=
  "你已经查看了其他专家的报告，并基于以下原因提出了疑问：\n\n" ++ reason ++
    "\n\n现在请你和你的组内成员再进行一次深入复查，重新审视患者的症状、体征和检查结果，更新你的诊断报告内容。\n\n**重要提醒**：最后仍需按照原有格式输出完整的诊断报告。"

/-- Apply one review verdict to one slot, returning the updated slot and
an optional conflict reason. -/
def applyVerdict : ReviewOutcome → ExpertSlot → ExpertSlot × Option String
  | ReviewOutcome.failure, e => ({ e with has_error := true }, none)
  | ReviewOutcome.ok sat reason resp, e =>
    let e1 := { e with
      is_satisfied := sat
      reinvestigate_reason := some reason
      messages := e.messages ++ [aiMsg resp] }
    if sat then (e1, none)
    else ({ e1 with messages := e1.messages ++ [humanMsg (reinvestigateMsgContent reason)] },
          some reason)

/-- The result-processing loop of `expert_reviewer_node`: apply each
reviewed expert's verdict to its slot, accumulating the conflict map. -/
def processReviews (verdict : String → ReviewOutcome)
    (pool : List (String × ExpertSlot)) :
    List (String × ExpertSlot) × List (String × String) :=
  pool.foldl
    (fun (acc : List (String × ExpertSlot) × List (String × String)) p =>
      if p.2.has_error || p.2.is_satisfied then (acc.1 ++ [p], acc.2)
      else
        let r := applyVerdict (verdict p.1) p.2
        (acc.1 ++ [(p.1, r.1)],
         match r.2 with
         | some reason => acc.2 ++ [(p.1, reason)]
         | none => acc.2))
    ([], [])

/-- The consensus computation at the end of the reviewer pass:
`active = pool slots without error`, consensus when `active` is empty or
every active slot is satisfied. -/
def consensusOf (pool : List (String × ExpertSlot)) : Bool :=
  let active := (pool.map Prod.snd).filter fun e => !e.has_error
  if active.isEmpty then true else active.all fun e => e.is_satisfied

/-- `expert_reviewer_node(state)`: build the review messages and publish
reports, reset the conflict map, elicit a verdict for every reviewed
expert (the verdict LLM is the oracle), then update `round_count` and
`consensus_reached` and emit one progress message. -/
def expert_reviewer_node (rp : String) (verdict : String → ReviewOutcome)
    (s : MDTState) : MDTState :=
  let s1 := (build_reviewer_messages rp s).1
  let s2 := { s1 with blackboard := { s1.blackboard with conflicts := [] } }
  let folded := processReviews verdict s2.expert_pool
  let pool' := folded.1
  let rc' := s2.round_count + 1
  let active := (pool'.map Prod.snd).filter fun e => !e.has_error
  let all_satisfied := consensusOf pool'
  let satisfied_count := (active.filter fun e => e.is_satisfied).length
  let progress := "[PASS] 第 " ++ toString (rc' - 1) ++ " 轮专家互审完成 (满意度: " ++
    toString satisfied_count ++ "/" ++ toString active.length ++ ")" ++
    (if all_satisfied then " - 已达成共识！"
     else if rc' > s2.max_rounds then " - 已达最大轮数" else "")
  { s2 with
    expert_pool := pool'
    blackboard := { s2.blackboard with conflicts := folded.2 }
    round_count := rc'
    consensus_reached := all_satisfied
    messages := s2.messages ++ [aiMsg progress] }

/-! ## Router and loop (`p02_mdt/nodes.py`, `graph.py`) -/

/-- `routing_decision_node`: logs only, returns the empty delta `{}` — the
state is unchanged. -/
def routing_decision_node (s : MDTState) : MDTState := s

/-- `fan_out_node`: the back-edge marker; appends one progress message. -/
def fan_out_node (s : MDTState) : MDTState :=
  { s with messages := s.messages ++
      [aiMsg ("🔄 开始第 " ++ toString s.round_count ++ " 轮专家诊断，重新审视患者信息...")] }

/-- `should_continue_or_end(state)`: the conditional-edge router. -/
def should_continue_or_end (s : MDTState) : String :=
  if s.consensus_reached then "end"
  else if s.round_count ≥ s.max_rounds then "end"
  else "continue"

theorem should_continue_iff (s : MDTState) :
    should_continue_or_end s = "continue" ↔
      s.consensus_reached = false ∧ s.round_count < s.max_rounds := by
  unfold should_continue_or_end
  by_cases hc : s.consensus_reached
  · rw [if_pos hc]
    constructor
    · intro h; exact absurd h (by decide)
    · rintro ⟨h1, -⟩
      rw [hc] at h1
      exact absurd h1 (by decide)
  · rw [if_neg hc]
    by_cases hr : s.round_count ≥ s.max_rounds
    · rw [if_pos hr]
      constructor
      · intro h; exact absurd h (by decide)
      · rintro ⟨-, h2⟩; omega
    · rw [if_neg hr]
      constructor
      · intro _
        refine ⟨?_, by omega⟩
        cases h : s.consensus_reached
        · rfl
        · exact absurd h hc
      · intro _; rfl

/-- The per-cycle oracle: the reviewer prompt text, one run outcome per
expert node, one review outcome per reviewed expert. -/
structure CycleOracle where
  rp : String
  outcomes : String → RunOutcome
  verdicts : String → ReviewOutcome

/-- One fan-out/review cycle of the MDT loop. -/
def mdtCycle (o : CycleOracle) (s : MDTState) : MDTState :=
  expert_reviewer_node o.rp o.verdicts { s with expert_pool := fanOutPool o.outcomes s.expert_pool }

theorem reviewer_round_count (rp : String) (verdict : String → ReviewOutcome) (s : MDTState) :
    (expert_reviewer_node rp verdict s).round_count = s.round_count + 1 := rfl

theorem reviewer_max_rounds (rp : String) (verdict : String → ReviewOutcome) (s : MDTState) :
    (expert_reviewer_node rp verdict s).max_rounds = s.max_rounds := rfl

theorem mdtCycle_round_count (o : CycleOracle) (s : MDTState) :
    (mdtCycle o s).round_count = s.round_count + 1 := rfl

theorem mdtCycle_max_rounds (o : CycleOracle) (s : MDTState) :
    (mdtCycle o s).max_rounds = s.max_rounds := rfl

/-- The number of fan-out/review cycles executed by the MDT loop: after
triage the graph runs one cycle unconditionally, then loops back through
`fan_out` exactly while the router answers `"continue"`. -/
def runCycles (oracle : Nat → CycleOracle) (s : MDTState) : Nat :=
  let s' := mdtCycle (oracle s.round_count) s
  if h : should_continue_or_end s' = "continue" then 1 + runCycles oracle s' else 1
termination_by s.max_rounds - s.round_count
decreasing_by
  have hc := (should_continue_iff _).mp h
  rw [mdtCycle_round_count, mdtCycle_max_rounds] at hc
  rw [mdtCycle_round_count, mdtCycle_max_rounds]
  omega

theorem runCycles_le (oracle : Nat → CycleOracle) :
    ∀ (n : Nat) (s : MDTState), s.max_rounds - s.round_count = n →
      runCycles oracle s ≤ s.max_rounds - s.round_count + 1 := by
  intro n
  induction n using Nat.strong_induction_on with
  | _ n ih =>
    intro s hn
    unfold runCycles
    by_cases h : should_continue_or_end (mdtCycle (oracle s.round_count) s) = "continue"
    · rw [dif_pos h]
      have hc := (should_continue_iff _).mp h
      rw [mdtCycle_round_count, mdtCycle_max_rounds] at hc
      have hlt : (mdtCycle (oracle s.round_count) s).max_rounds -
          (mdtCycle (oracle s.round_count) s).round_count < n := by
        rw [mdtCycle_round_count, mdtCycle_max_rounds]
        omega
      have := ih _ hlt (mdtCycle (oracle s.round_count) s) rfl
      rw [mdtCycle_round_count, mdtCycle_max_rounds] at this
      omega
    · rw [dif_neg h]
      omega

/-! ## Patient facts (`tools/patientinfo.py`)

Records (`Dict[str, Any]`) are association lists with string values
(field values are opaque to every claim).  The `shortuuid` random
generator is an oracle `rng : Nat → String` consumed at a cursor
position; `ShortUUID(...).random(length=4)` is `rng pos`.  Exceptions
(`RuntimeError` from the generator, and the `AttributeError` the source
raises when upserting records into the scalar `base_info` mapping, which
has no `append`) are `Except.error`; on error the tool returns no state
update. -/

/-- The 32-character id alphabet (excluding `0`, `1`, `I`, `O`). -/
def shortAlphabet : String := "23456789ABCDEFGHJKLMNPQRSTUVWXYZ"

/-- The retry loop of `generate_short_uuid`: try up to `fuel` draws from
the generator, skipping ids already in `existing`. -/
def genLoop (rng : Nat → String) : Nat → Nat → List String → Except Unit (String × Nat)
  | 0, _, _ => Except.error ()
  | fuel + 1, pos, existing =>
    if rng pos ∈ existing then genLoop rng fuel (pos + 1) existing
    else Except.ok (rng pos, pos + 1)

/-- `generate_short_uuid(existing_ids)` with `max_retries = 1000`. -/
def generate_short_uuid (rng : Nat → String) (pos : Nat) (existing : List String) :
    Except Unit (String × Nat) :=
  genLoop rng 1000 pos existing

/-- A patient-fact record: a Python dict with string keys and opaque
(string-modelled) values. -/
abbrev Rec := List (String × String)

/-- `record.get("id")`. -/
def getId (r : Rec) : Option String := getKey? r "id"

/-- Python `existing.update(record)`: set each field of the patch in
order. -/
def dictUpdate (d patch : Rec) : Rec :=
  patch.foldl (fun acc p => setKey acc p.1 p.2) d

/-- Mutate the record that `index_by_id` maps `rid` to.  The index is a
dict comprehension, so the *last* record with that id wins. -/
def updateLastById : List Rec → String → (Rec → Rec) → List Rec
  | [], _, _ => []
  | r :: rs, rid, f =>
    if rs.any (fun x => decide (getId x = some rid)) then r :: updateLastById rs rid f
    else if getId r = some rid then f r :: rs
    else r :: updateLastById rs rid f

/-- The ids present in a bucket, in order. -/
def idsOf (lst : List Rec) : List String := lst.filterMap getId

/-- Process one payload record against the bucket state
(current list, accumulated `existing_ids`, generator cursor).
`indexKeys` is the fixed key set of `index_by_id`, computed once per
bucket. -/
def upsertStep (rng : Nat → String) (now : String) (indexKeys : List String)
    (lst : List Rec) (ids : List String) (pos : Nat) (record : Rec) :
    Except Unit (List Rec × List String × Nat) :=
  match getKey? record "id" with
  | some rid =>
    if rid ≠ "" ∧ rid ∈ indexKeys then
      Except.ok (updateLastById lst rid (fun ex => setKey (dictUpdate ex record) "t_time" now),
        ids, pos)
    else if rid ≠ "" then
      Except.ok (lst ++ [setKey record "t_time" now], ids ++ [rid], pos)
    else
      match generate_short_uuid rng pos ids with
      | Except.error _ => Except.error ()
      | Except.ok (g, pos') =>
        Except.ok (lst ++ [setKey (setKey record "id" g) "t_time" now], ids ++ [g], pos')
  | none =>
    match generate_short_uuid rng pos ids with
    | Except.error _ => Except.error ()
    | Except.ok (g, pos') =>
      Except.ok (lst ++ [setKey (setKey record "id" g) "t_time" now], ids ++ [g], pos')

/-- The record loop of `upsert_patient_facts` for one bucket. -/
def upsertRecords (rng : Nat → String) (now : String) (indexKeys : List String) :
    List Rec → List Rec → List String → Nat → Except Unit (List Rec × Nat)
  | lst, [], _, pos => Except.ok (lst, pos)
  | lst, r :: rs, ids, pos =>
    match upsertStep rng now indexKeys lst ids pos r with
    | Except.error _ => Except.error ()
    | Except.ok (lst', ids', pos') => upsertRecords rng now indexKeys lst' rs ids' pos'

/-- One bucket of `upsert_patient_facts`: snapshot `existing_ids` and the
`index_by_id` key set, then process the payload records in order. -/
def upsertBucket (rng : Nat → String) (now : String) (lst records : List Rec) (pos : Nat) :
    Except Unit (List Rec × Nat) :=
  let indexKeys := lst.filterMap fun r => getKey? r "id"
  upsertRecords rng now indexKeys lst records indexKeys pos

/-- The eight standard buckets ensured by the tool's initialization. -/
def standardBuckets : List String :=
  ["base_info", "symptoms", "vitals", "exams", "medications",
   "family_history", "past_medical_history", "others"]

/-- A patient record: bucket name to fact list.  (`base_info` is a scalar
mapping in the source; upserting a record into it raises, see
`upsertBuckets`.) -/
abbrev PatientInfo := List (String × List Rec)

/-- A bucket's contents, empty when absent. -/
def bucketOf (pi : PatientInfo) (b : String) : List Rec := (getKey? pi b).getD []

/-- The initialization block: ensure every standard bucket exists. -/
def ensureBuckets (pi : PatientInfo) : PatientInfo :=
  standardBuckets.foldl
    (fun acc b => if (getKey? acc b).isSome then acc else acc ++ [(b, [])]) pi

/-- The bucket loop of `upsert_patient_facts`.  Upserting a nonempty
record list into `base_info` raises in the source (`dict` has no
`append`; `r["id"]` on string keys also fails), so it is an error. -/
def upsertBuckets (rng : Nat → String) (now : String) :
    PatientInfo → List (String × List Rec) → Nat → Except Unit (PatientInfo × Nat)
  | pi, [], pos => Except.ok (pi, pos)
  | pi, (b, records) :: rest, pos =>
    if b = "base_info" ∧ records ≠ [] then Except.error ()
    else
      match upsertBucket rng now (bucketOf pi b) records pos with
      | Except.error _ => Except.error ()
      | Except.ok (lst', pos') => upsertBuckets rng now (setKey pi b lst') rest pos'

/-- `upsert_patient_facts(payload, state)`: ensure the standard buckets,
then upsert each payload bucket in order.  (The returned `ToolMessage` is
omitted: no claim concerns it.) -/
def upsert_patient_facts (rng : Nat → String) (now : String)
    (patient_info : PatientInfo) (payload : List (String × List Rec)) (pos : Nat) :
    Except Unit (PatientInfo × Nat) :=
  upsertBuckets rng now (ensureBuckets patient_info) payload pos

/-! ## Lemmas about the id generator -/

theorem genLoop_ok_spec (rng : Nat → String) :
    ∀ (fuel pos : Nat) (existing : List String) (g : String) (pos₂ : Nat),
      genLoop rng fuel pos existing = Except.ok (g, pos₂) →
      g ∉ existing ∧
        ∃ k, k < fuel ∧ g = rng (pos + k) ∧ pos₂ = pos + k + 1 ∧
          ∀ j, j < k → rng (pos + j) ∈ existing := by
  intro fuel
  induction fuel with
  | zero => intro pos existing g pos₂ h; exact absurd h (by simp [genLoop])
  | succ fuel ih =>
    intro pos existing g pos₂ h
    unfold genLoop at h
    by_cases hmem : rng pos ∈ existing
    · rw [if_pos hmem] at h
      obtain ⟨h1, k, hk, hg, hp, hall⟩ := ih (pos + 1) existing g pos₂ h
      refine ⟨h1, k + 1, by omega, by rw [hg]; congr 1; omega, by omega, ?_⟩
      intro j hj
      cases j with
      | zero => simpa using hmem
      | succ j =>
        have := hall j (by omega)
        have harg : pos + 1 + j = pos + (j + 1) := by ring
        rw [harg] at this
        exact this
    · rw [if_neg hmem] at h
      cases h
      exact ⟨hmem, 0, by omega, by simp, by omega, fun j hj => absurd hj (by omega)⟩

theorem genLoop_exhaust (rng : Nat → String) :
    ∀ (fuel pos : Nat) (existing : List String),
      (∀ k, k < fuel → rng (pos + k) ∈ existing) →
      genLoop rng fuel pos existing = Except.error () := by
  intro fuel
  induction fuel with
  | zero => intro pos existing _; rfl
  | succ fuel ih =>
    intro pos existing hall
    have hmem : rng pos ∈ existing := by simpa using hall 0 (by omega)
    unfold genLoop
    rw [if_pos hmem]
    refine ih (pos + 1) existing ?_
    intro k hk
    have := hall (k + 1) (by omega)
    have harg : pos + (k + 1) = pos + 1 + k := by ring
    rw [harg] at this
    exact this

/-! ## Lemmas about records and buckets -/

theorem getKey_append {β : Type} (l : List (String × β)) (k : String) (v : β) (b : String) :
    getKey? (l ++ [(k, v)]) b = match getKey? l b with
      | some x => some x
      | none => if k = b then some v else none := by
  induction l with
  | nil => simp [getKey?]
  | cons p t ih =>
    by_cases hp : p.1 = b
    · simp [getKey?, hp]
    · simpa [getKey?, hp] using ih

theorem getKey_some_mem {β : Type} (l : List (String × β)) (k : String) (v : β)
    (h : getKey? l k = some v) : (k, v) ∈ l := by
  induction l with
  | nil => exact absurd h (by simp [getKey?])
  | cons p t ih =>
    obtain ⟨k₀, v₀⟩ := p
    by_cases hk : k₀ = k
    · subst hk
      rw [getKey_cons, if_pos rfl] at h
      cases h
      exact List.mem_cons_self _ _
    · rw [getKey_cons, if_neg hk] at h
      exact List.mem_cons_of_mem _ (ih h)

theorem getKey_dictUpdate_not_mem (d patch : Rec) (k : String)
    (h : k ∉ patch.map Prod.fst) : getKey? (dictUpdate d patch) k = getKey? d k := by
  induction patch generalizing d with
  | nil => rfl
  | cons p t ih =>
    have hk : p.1 ≠ k := by
      intro hc; exact h (by simp [hc])
    have ht : k ∉ t.map Prod.fst := fun hc => h (by simp [hc])
    unfold dictUpdate
    rw [List.foldl_cons]
    have := ih (d := setKey d p.1 p.2) ht
    unfold dictUpdate at this
    rw [this, getKey_setKey_ne _ _ _ _ hk]

theorem getKey_dictUpdate_mem_nodup (d : Rec) (patch : Rec) (k : String) (v : String)
    (hnd : (patch.map Prod.fst).Nodup) (hmem : (k, v) ∈ patch) :
    getKey? (dictUpdate d patch) k = some v := by
  induction patch generalizing d with
  | nil => exact absurd hmem (by simp)
  | cons p t ih =>
    rcases List.mem_cons.mp hmem with heq | hmem'
    · subst heq
      have ht : k ∉ t.map Prod.fst := by
        have := hnd
        simp only [List.map_cons, List.nodup_cons] at this
        exact this.1
      unfold dictUpdate
      rw [List.foldl_cons]
      have := getKey_dictUpdate_not_mem (setKey d k v) t k ht
      unfold dictUpdate at this
      rw [this, getKey_setKey_self]
    · have hnd' : (t.map Prod.fst).Nodup := by
        simp only [List.map_cons, List.nodup_cons] at hnd
        exact hnd.2
      unfold dictUpdate
      rw [List.foldl_cons]
      have := ih (d := setKey d p.1 p.2) hnd' hmem'
      unfold dictUpdate at this
      rw [this]

theorem updateLastById_length (l : List Rec) (rid : String) (f : Rec → Rec) :
    (updateLastById l rid f).length = l.length := by
  induction l with
  | nil => rfl
  | cons r rs ih =>
    unfold updateLastById
    by_cases h1 : rs.any (fun x => decide (getId x = some rid))
    · rw [if_pos h1]; simp [ih]
    · rw [if_neg h1]
      by_cases h2 : getId r = some rid
      · rw [if_pos h2]; simp
      · rw [if_neg h2]; simp [ih]

theorem updateLastById_map_getId (l : List Rec) (rid : String) (f : Rec → Rec)
    (hf : ∀ r, getId r = some rid → getId (f r) = some rid) :
    (updateLastById l rid f).map getId = l.map getId := by
  induction l with
  | nil => rfl
  | cons r rs ih =>
    unfold updateLastById
    by_cases h1 : rs.any (fun x => decide (getId x = some rid))
    · rw [if_pos h1]; simp [ih]
    · rw [if_neg h1]
      by_cases h2 : getId r = some rid
      · rw [if_pos h2]
        simp only [List.map_cons]
        rw [hf r h2, h2]
      · rw [if_neg h2]; simp [ih]

theorem updateLastById_idsOf (l : List Rec) (rid : String) (f : Rec → Rec)
    (hf : ∀ r, getId r = some rid → getId (f r) = some rid) :
    idsOf (updateLastById l rid f) = idsOf l := by
  induction l with
  | nil => rfl
  | cons r rs ih =>
    unfold updateLastById
    by_cases h1 : rs.any (fun x => decide (getId x = some rid))
    · rw [if_pos h1]
      unfold idsOf
      simp only [List.filterMap_cons]
      unfold idsOf at ih
      rw [ih]
    · rw [if_neg h1]
      by_cases h2 : getId r = some rid
      · rw [if_pos h2]
        unfold idsOf
        simp only [List.filterMap_cons]
        rw [hf r h2, h2]
      · rw [if_neg h2]
        unfold idsOf
        simp only [List.filterMap_cons]
        unfold idsOf at ih
        rw [ih]

/-- The id written by the merge branch: the merged record keeps id `rid`. -/
theorem merged_getId (record : Rec) (rid now : String)
    (hnd : (record.map Prod.fst).Nodup) (hid : getKey? record "id" = some rid) (ex : Rec) :
    getId (setKey (dictUpdate ex record) "t_time" now) = some rid := by
  unfold getId
  rw [getKey_setKey_ne _ _ _ _ (by decide)]
  exact getKey_dictUpdate_mem_nodup ex record "id" rid hnd (getKey_some_mem _ _ _ hid)

/-- The id of a freshly appended generated record. -/
theorem appended_getId (record : Rec) (g now : String) :
    getId (setKey (setKey record "id" g) "t_time" now) = some g := by
  unfold getId
  rw [getKey_setKey_ne _ _ _ _ (by decide), getKey_setKey_self]

/-- The branch analysis of one `upsertStep`. -/
theorem upsertStep_cases (rng : Nat → String) (now : String) (ik : List String)
    (lst : List Rec) (ids : List String) (pos : Nat) (r : Rec)
    (lst' : List Rec) (ids' : List String) (pos' : Nat)
    (h : upsertStep rng now ik lst ids pos r = Except.ok (lst', ids', pos')) :
    (∃ rid, getKey? r "id" = some rid ∧ rid ≠ "" ∧ rid ∈ ik ∧
       lst' = updateLastById lst rid (fun ex => setKey (dictUpdate ex r) "t_time" now) ∧
       ids' = ids ∧ pos' = pos) ∨
    (∃ rid, getKey? r "id" = some rid ∧ rid ≠ "" ∧ rid ∉ ik ∧
       lst' = lst ++ [setKey r "t_time" now] ∧ ids' = ids ++ [rid] ∧ pos' = pos) ∨
    (∃ g, (getKey? r "id" = none ∨ getKey? r "id" = some "") ∧
       generate_short_uuid rng pos ids = Except.ok (g, pos') ∧
       lst' = lst ++ [setKey (setKey r "id" g) "t_time" now] ∧ ids' = ids ++ [g]) := by
  unfold upsertStep at h
  split at h
  · -- `some rid`
    next rid hid =>
    split at h
    · next hcond =>
      cases h
      exact Or.inl ⟨rid, hid, hcond.1, hcond.2, rfl, rfl, rfl⟩
    · next hcond =>
      split at h
      · next hne =>
        cases h
        exact Or.inr (Or.inl ⟨rid, hid, hne, fun hik => hcond ⟨hne, hik⟩, rfl, rfl, rfl⟩)
      · next hne =>
        have hre : rid = "" := by
          by_contra hc
          exact hne hc
        split at h
        · cases h
        · next g pos₂ hg =>
          cases h
          exact Or.inr (Or.inr ⟨g, Or.inr (hre ▸ hid), hg, rfl, rfl⟩)
  · -- `none`
    next hid =>
    split at h
    · cases h
    · next g pos₂ hg =>
      cases h
      exact Or.inr (Or.inr ⟨g, Or.inl hid, hg, rfl, rfl⟩)

/-- "`new` extends `old` without touching existing ids": the first
`old.length` entries carry exactly the old ids, and nothing was removed. -/
def IdsExtend (old new : List Rec) : Prop :=
  (new.take old.length).map getId = old.map getId ∧ old.length ≤ new.length

theorem IdsExtend.refl (l : List Rec) : IdsExtend l l := by
  constructor
  · rw [List.take_length]
  · exact le_refl _

theorem IdsExtend.of_map_eq {l l₂ : List Rec}
    (hmap : l₂.map getId = l.map getId) (hlen : l₂.length = l.length) : IdsExtend l l₂ := by
  constructor
  · rw [← hlen, List.take_length, hmap]
  · omega

theorem IdsExtend.append_single (l : List Rec) (x : Rec) : IdsExtend l (l ++ [x]) := by
  constructor
  · rw [List.take_left, ]
  · simp

theorem IdsExtend.trans {a b c : List Rec} (hab : IdsExtend a b) (hbc : IdsExtend b c) :
    IdsExtend a c := by
  obtain ⟨m1, l1⟩ := hab
  obtain ⟨m2, l2⟩ := hbc
  constructor
  · calc (c.take a.length).map getId
        = ((c.take b.length).take a.length).map getId := by
          rw [List.take_take, min_eq_left l1]
      _ = ((c.take b.length).map getId).take a.length := by rw [List.map_take]
      _ = ((b.map getId)).take a.length := by rw [m2]
      _ = (b.take a.length).map getId := by rw [List.map_take]
      _ = a.map getId := m1
  · omega

theorem upsertRecords_extends (rng : Nat → String) (now : String) (ik : List String) :
    ∀ (recs : List Rec) (lst : List Rec) (ids : List String) (pos : Nat)
      (lst' : List Rec) (pos' : Nat),
      (∀ r ∈ recs, (r.map Prod.fst).Nodup) →
      upsertRecords rng now ik lst recs ids pos = Except.ok (lst', pos') →
      IdsExtend lst lst' := by
  intro recs
  induction recs with
  | nil =>
    intro lst ids pos lst' pos' _ h
    unfold upsertRecords at h
    cases h
    exact IdsExtend.refl _
  | cons r rs ih =>
    intro lst ids pos lst' pos' hnd h
    unfold upsertRecords at h
    cases hstep : upsertStep rng now ik lst ids pos r with
    | error e => rw [hstep] at h; cases h
    | ok trip =>
      obtain ⟨lst₂, ids₂, pos₂⟩ := trip
      rw [hstep] at h
      have hrest := ih lst₂ ids₂ pos₂ lst' pos'
        (fun x hx => hnd x (List.mem_cons_of_mem _ hx)) h
      have hhead : IdsExtend lst lst₂ := by
        rcases upsertStep_cases rng now ik lst ids pos r lst₂ ids₂ pos₂ hstep with
          ⟨rid, hid, hne, hik, hl, -, -⟩ | ⟨rid, hid, hne, hik, hl, -, -⟩ | ⟨g, -, -, hl, -⟩
        · subst hl
          exact IdsExtend.of_map_eq
            (updateLastById_map_getId lst rid _
              (fun ex _ => merged_getId r rid now (hnd r (List.mem_cons_self _ _)) hid ex))
            (updateLastById_length lst rid _)
        · subst hl
          exact IdsExtend.append_single _ _
        · subst hl
          exact IdsExtend.append_single _ _
      exact hhead.trans hrest

theorem upsertRecords_nodup (rng : Nat → String) (now : String) (ik : List String) :
    ∀ (recs : List Rec) (lst : List Rec) (ids : List String) (pos : Nat)
      (lst' : List Rec) (pos' : Nat),
      (idsOf lst).Nodup →
      (∀ x ∈ idsOf lst, x ∈ ids) →
      (∀ r ∈ recs, (r.map Prod.fst).Nodup) →
      (∀ r ∈ recs, ∀ rid, getKey? r "id" = some rid → rid ≠ "" → rid ∈ ik) →
      upsertRecords rng now ik lst recs ids pos = Except.ok (lst', pos') →
      (idsOf lst').Nodup := by
  intro recs
  induction recs with
  | nil =>
    intro lst ids pos lst' pos' hlst _ _ _ h
    unfold upsertRecords at h
    cases h
    exact hlst
  | cons r rs ih =>
    intro lst ids pos lst' pos' hlst hsub hnd hinik h
    unfold upsertRecords at h
    cases hstep : upsertStep rng now ik lst ids pos r with
    | error e => rw [hstep] at h; cases h
    | ok trip =>
      obtain ⟨lst₂, ids₂, pos₂⟩ := trip
      rw [hstep] at h
      rcases upsertStep_cases rng now ik lst ids pos r lst₂ ids₂ pos₂ hstep with
        ⟨rid, hid, hne, hik, hl, hids, -⟩ | ⟨rid, hid, hne, hik, hl, hids, -⟩ |
          ⟨g, hidn, hg, hl, hids⟩
      · -- merge in place: ids unchanged
        have heq : idsOf lst₂ = idsOf lst := by
          rw [hl]
          exact updateLastById_idsOf lst rid _
            (fun ex _ => merged_getId r rid now (hnd r (List.mem_cons_self _ _)) hid ex)
        exact ih lst₂ ids₂ pos₂ lst' pos' (by rw [heq]; exact hlst)
          (fun x hx => by rw [hids]; exact hsub x (heq ▸ hx))
          (fun x hx => hnd x (List.mem_cons_of_mem _ hx))
          (fun x hx => hinik x (List.mem_cons_of_mem _ hx)) h
      · -- append with caller-provided id: excluded by the hypothesis
        exact absurd (hinik r (List.mem_cons_self _ _) rid hid hne) hik
      · -- append with a freshly generated id
        have hgnot : g ∉ ids :=
          (genLoop_ok_spec rng 1000 pos ids g pos₂ hg).1
        have heq : idsOf lst₂ = idsOf lst ++ [g] := by
          rw [hl]
          unfold idsOf
          rw [List.filterMap_append]
          simp only [List.filterMap_cons, List.filterMap_nil, appended_getId r g now]
        refine ih lst₂ ids₂ pos₂ lst' pos' ?_ ?_
          (fun x hx => hnd x (List.mem_cons_of_mem _ hx))
          (fun x hx => hinik x (List.mem_cons_of_mem _ hx)) h
        · rw [heq]
          rw [List.nodup_append]
          refine ⟨hlst, List.nodup_singleton g, ?_⟩
          intro a ha hag
          rw [List.mem_singleton] at hag
          subst hag
          exact hgnot (hsub a ha)
        · rw [heq, hids]
          intro x hx
          rcases List.mem_append.mp hx with h1 | h1
          · exact List.mem_append.mpr (Or.inl (hsub x h1))
          · exact List.mem_append.mpr (Or.inr h1)

theorem bucketOf_setKey_self (pi : PatientInfo) (b : String) (v : List Rec) :
    bucketOf (setKey pi b v) b = v := by
  unfold bucketOf
  rw [getKey_setKey_self]
  rfl

theorem bucketOf_setKey_ne (pi : PatientInfo) (b b' : String) (v : List Rec) (h : b ≠ b') :
    bucketOf (setKey pi b v) b' = bucketOf pi b' := by
  unfold bucketOf
  rw [getKey_setKey_ne _ _ _ _ h]

/-- The standard-bucket initialization only materializes empty buckets:
observed through `bucketOf` it is invisible. -/
theorem bucketOf_ensureBuckets (pi : PatientInfo) (b : String) :
    bucketOf (ensureBuckets pi) b = bucketOf pi b := by
  have main : ∀ (bs : List String) (acc : PatientInfo),
      bucketOf (bs.foldl (fun acc b =>
        if (getKey? acc b).isSome then acc else acc ++ [(b, [])]) acc) b = bucketOf acc b := by
    intro bs
    induction bs with
    | nil => intro acc; rfl
    | cons bk rest ih =>
      intro acc
      rw [List.foldl_cons]
      by_cases hk : (getKey? acc bk).isSome
      · rw [if_pos hk, ih]
      · rw [if_neg hk, ih]
        unfold bucketOf
        rw [getKey_append]
        cases hacc : getKey? acc b with
        | some v => rfl
        | none =>
          by_cases hbk : bk = b
          · subst hbk
            rw [if_pos rfl]
            rfl
          · rw [if_neg hbk]
  exact main standardBuckets pi

theorem upsertBuckets_frame (rng : Nat → String) (now : String) :
    ∀ (payload : List (String × List Rec)) (pi : PatientInfo) (pos : Nat)
      (pi' : PatientInfo) (pos' : Nat),
      upsertBuckets rng now pi payload pos = Except.ok (pi', pos') →
      ∀ b, b ∉ payload.map Prod.fst → bucketOf pi' b = bucketOf pi b := by
  intro payload
  induction payload with
  | nil =>
    intro pi pos pi' pos' h b _
    unfold upsertBuckets at h
    cases h
    rfl
  | cons p rest ih =>
    intro pi pos pi' pos' h b hb
    obtain ⟨b₀, records⟩ := p
    unfold upsertBuckets at h
    split at h
    · cases h
    · cases hbk : upsertBucket rng now (bucketOf pi b₀) records pos with
      | error e => rw [hbk] at h; cases h
      | ok q =>
        obtain ⟨lst', pos₂⟩ := q
        rw [hbk] at h
        have hne : b₀ ≠ b := by
          intro hc
          exact hb (by simp [hc])
        have := ih (setKey pi b₀ lst') pos₂ pi' pos' h b
          (fun hc => hb (List.mem_cons_of_mem _ hc))
        rw [this, bucketOf_setKey_ne _ _ _ _ hne]

theorem upsertBuckets_extends (rng : Nat → String) (now : String) :
    ∀ (payload : List (String × List Rec)) (pi : PatientInfo) (pos : Nat)
      (pi' : PatientInfo) (pos' : Nat),
      (∀ p ∈ payload, ∀ r ∈ p.2, (r.map Prod.fst).Nodup) →
      upsertBuckets rng now pi payload pos = Except.ok (pi', pos') →
      ∀ b, IdsExtend (bucketOf pi b) (bucketOf pi' b) := by
  intro payload
  induction payload with
  | nil =>
    intro pi pos pi' pos' _ h b
    unfold upsertBuckets at h
    cases h
    exact IdsExtend.refl _
  | cons p rest ih =>
    intro pi pos pi' pos' hnd h b
    obtain ⟨b₀, records⟩ := p
    unfold upsertBuckets at h
    split at h
    · cases h
    · cases hbk : upsertBucket rng now (bucketOf pi b₀) records pos with
      | error e => rw [hbk] at h; cases h
      | ok q =>
        obtain ⟨lst', pos₂⟩ := q
        rw [hbk] at h
        have hstep : IdsExtend (bucketOf pi b₀) lst' := by
          unfold upsertBucket at hbk
          exact upsertRecords_extends rng now _ records (bucketOf pi b₀) _ pos lst' pos₂
            (hnd (b₀, records) (List.mem_cons_self _ _)) hbk
        have hrest := ih (setKey pi b₀ lst') pos₂ pi' pos'
          (fun q hq => hnd q (List.mem_cons_of_mem _ hq)) h
        by_cases hbb : b₀ = b
        · subst hbb
          have := hrest b₀
          rw [bucketOf_setKey_self] at this
          exact hstep.trans this
        · have := hrest b
          rw [bucketOf_setKey_ne _ _ _ _ hbb] at this
          exact this

theorem upsertBuckets_nodup (rng : Nat → String) (now : String) :
    ∀ (payload : List (String × List Rec)) (pi : PatientInfo) (pos : Nat)
      (pi' : PatientInfo) (pos' : Nat),
      (payload.map Prod.fst).Nodup →
      (∀ b, (idsOf (bucketOf pi b)).Nodup) →
      (∀ p ∈ payload, ∀ r ∈ p.2, (r.map Prod.fst).Nodup) →
      (∀ p ∈ payload, ∀ r ∈ p.2, ∀ rid, getKey? r "id" = some rid → rid ≠ "" →
        rid ∈ idsOf (bucketOf pi p.1)) →
      upsertBuckets rng now pi payload pos = Except.ok (pi', pos') →
      ∀ b, (idsOf (bucketOf pi' b)).Nodup := by
  intro payload
  induction payload with
  | nil =>
    intro pi pos pi' pos' _ hpi _ _ h b
    unfold upsertBuckets at h
    cases h
    exact hpi b
  | cons p rest ih =>
    intro pi pos pi' pos' hkeys hpi hnd hmatch h b
    obtain ⟨b₀, records⟩ := p
    unfold upsertBuckets at h
    split at h
    · cases h
    · cases hbk : upsertBucket rng now (bucketOf pi b₀) records pos with
      | error e => rw [hbk] at h; cases h
      | ok q =>
        obtain ⟨lst', pos₂⟩ := q
        rw [hbk] at h
        have hlst' : (idsOf lst').Nodup := by
          unfold upsertBucket at hbk
          have hik : (bucketOf pi b₀).filterMap (fun r => getKey? r "id") =
              idsOf (bucketOf pi b₀) := rfl
          refine upsertRecords_nodup rng now _ records (bucketOf pi b₀) _ pos lst' pos₂
            (hpi b₀) (fun x hx => by rw [hik]; exact hx)
            (hnd (b₀, records) (List.mem_cons_self _ _))
            (fun r hr rid hid hne => ?_) hbk
          have := hmatch (b₀, records) (List.mem_cons_self _ _) r hr rid hid hne
          rw [hik]
          exact this
        have hb₀rest : b₀ ∉ rest.map Prod.fst := by
          simp only [List.map_cons, List.nodup_cons] at hkeys
          exact hkeys.1
        refine ih (setKey pi b₀ lst') pos₂ pi' pos'
          (by simp only [List.map_cons, List.nodup_cons] at hkeys; exact hkeys.2)
          (fun bb => ?_) (fun q hq => hnd q (List.mem_cons_of_mem _ hq))
          (fun q hq r hr rid hid hne => ?_) h b
        · by_cases hbb : b₀ = bb
          · subst hbb
            rw [bucketOf_setKey_self]
            exact hlst'
          · rw [bucketOf_setKey_ne _ _ _ _ hbb]
            exact hpi bb
        · have hq₀ : q.1 ≠ b₀ := by
            intro hc
            exact hb₀rest (hc ▸ (List.mem_map.mpr ⟨q, hq, rfl⟩))
          rw [bucketOf_setKey_ne _ _ _ _ (fun hc => hq₀ hc.symm)]
          exact hmatch q (List.mem_cons_of_mem _ hq) r hr rid hid hne

/-! ## Lemmas about the reviewer pass -/

theorem processReviews_pool (verdict : String → ReviewOutcome)
    (pool : List (String × ExpertSlot)) :
    (processReviews verdict pool).1 = pool.map fun p =>
      if p.2.has_error || p.2.is_satisfied then p
      else (p.1, (applyVerdict (verdict p.1) p.2).1) := by
  have main : ∀ (l : List (String × ExpertSlot)) (acc : List (String × ExpertSlot))
      (confl : List (String × String)),
      (l.foldl
        (fun (acc : List (String × ExpertSlot) × List (String × String)) p =>
          if p.2.has_error || p.2.is_satisfied then (acc.1 ++ [p], acc.2)
          else
            let r := applyVerdict (verdict p.1) p.2
            (acc.1 ++ [(p.1, r.1)],
             match r.2 with
             | some reason => acc.2 ++ [(p.1, reason)]
             | none => acc.2))
        (acc, confl)).1 = acc ++ l.map (fun p =>
          if p.2.has_error || p.2.is_satisfied then p
          else (p.1, (applyVerdict (verdict p.1) p.2).1)) := by
    intro l
    induction l with
    | nil => intro acc confl; simp
    | cons p rest ih =>
      intro acc confl
      rw [List.foldl_cons]
      by_cases hp : (p.2.has_error || p.2.is_satisfied) = true
      · simp only [if_pos hp]
        rw [ih]
        simp only [List.map_cons, if_pos hp, List.append_assoc, List.cons_append,
          List.nil_append]
      · simp only [if_neg hp]
        rw [ih]
        simp only [List.map_cons, if_neg hp, List.append_assoc, List.cons_append,
          List.nil_append]
  exact main pool [] []

theorem consensusOf_iff (pool : List (String × ExpertSlot)) :
    consensusOf pool = true ↔
      ∀ p ∈ pool, p.2.has_error = true ∨ p.2.is_satisfied = true := by
  unfold consensusOf
  by_cases hemp : ((pool.map Prod.snd).filter fun e => !e.has_error).isEmpty
  · rw [if_pos hemp]
    simp only [true_iff]
    intro p hp
    rw [List.isEmpty_iff] at hemp
    by_cases he : p.2.has_error
    · exact Or.inl he
    · exfalso
      have hmem : p.2 ∈ (pool.map Prod.snd).filter fun e => !e.has_error :=
        List.mem_filter.mpr ⟨List.mem_map.mpr ⟨p, hp, rfl⟩, by simp [he]⟩
      rw [hemp] at hmem
      exact List.not_mem_nil _ hmem
  · rw [if_neg hemp]
    rw [List.all_eq_true]
    constructor
    · intro hall p hp
      by_cases he : p.2.has_error
      · exact Or.inl he
      · refine Or.inr (hall p.2 ?_)
        exact List.mem_filter.mpr ⟨List.mem_map.mpr ⟨p, hp, rfl⟩, by simp [he]⟩
    · intro hall e he
      obtain ⟨hmem, hne⟩ := List.mem_filter.mp he
      obtain ⟨p, hp, rfl⟩ := List.mem_map.mp hmem
      rcases hall p hp with h | h
      · exact absurd h (by simpa using hne)
      · exact h

theorem reviewer_pool_eq (rp : String) (verdict : String → ReviewOutcome) (s : MDTState) :
    (expert_reviewer_node rp verdict s).expert_pool =
      (processReviews verdict ((build_reviewer_messages rp s).1.expert_pool)).1 := rfl

theorem reviewer_consensus_eq (rp : String) (verdict : String → ReviewOutcome) (s : MDTState) :
    (expert_reviewer_node rp verdict s).consensus_reached =
      consensusOf ((expert_reviewer_node rp verdict s).expert_pool) := rfl

theorem reviewer_published_eq (rp : String) (verdict : String → ReviewOutcome) (s : MDTState) :
    (expert_reviewer_node rp verdict s).blackboard.published_reports =
      publishReports s.expert_pool s.blackboard.published_reports := rfl

/-- Frame for the publish fold: group ids not among the folded experts are
untouched. -/
theorem publishReports_frame (pool : List (String × ExpertSlot))
    (published : List (String × String)) (g : String)
    (h : g ∉ pool.map Prod.fst) :
    getKey? (publishReports pool published) g = getKey? published g := by
  induction pool generalizing published with
  | nil => rfl
  | cons p rest ih =>
    have hg : p.1 ≠ g := fun hc => h (by simp [hc])
    have hrest : g ∉ rest.map Prod.fst := fun hc => h (by simp [hc])
    unfold publishReports
    rw [List.foldl_cons]
    by_cases h1 : p.2.has_error || p.2.is_satisfied
    · rw [if_pos h1]
      exact ih published hrest
    · rw [if_neg h1]
      by_cases h2 : (getKey? published p.1).isSome
      · rw [if_pos h2]
        exact ih published hrest
      · rw [if_neg h2]
        have := ih (published ++ [(p.1, p.2.report)]) hrest
        unfold publishReports at this
        rw [this, getKey_append]
        cases hgk : getKey? published g with
        | some v => rfl
        | none => rw [if_neg hg]

/-- The publish rule: after the fold, a non-error non-satisfied expert's
entry is its previously published report when one exists, and its current
report otherwise. -/
theorem publishReports_lookup (pool : List (String × ExpertSlot))
    (published : List (String × String)) (g : String) (e : ExpertSlot)
    (hnd : (pool.map Prod.fst).Nodup) (hmem : (g, e) ∈ pool)
    (herr : e.has_error = false) (hsat : e.is_satisfied = false) :
    getKey? (publishReports pool published) g =
      some ((getKey? published g).getD e.report) := by
  induction pool generalizing published with
  | nil => exact absurd hmem (List.not_mem_nil _)
  | cons p rest ih =>
    have hndr : (rest.map Prod.fst).Nodup := by
      simp only [List.map_cons, List.nodup_cons] at hnd
      exact hnd.2
    rcases List.mem_cons.mp hmem with heq | hmem'
    · -- the expert at the head of the pool
      subst heq
      have hskip : ¬(e.has_error || e.is_satisfied) = true := by
        simp [herr, hsat]
      have hrest : g ∉ rest.map Prod.fst := by
        simp only [List.map_cons, List.nodup_cons] at hnd
        exact hnd.1
      unfold publishReports
      rw [List.foldl_cons]
      rw [if_neg hskip]
      by_cases h2 : (getKey? published g).isSome
      · rw [if_pos h2]
        have := publishReports_frame rest published g hrest
        unfold publishReports at this
        rw [this]
        obtain ⟨v, hv⟩ := Option.isSome_iff_exists.mp h2
        rw [hv]
        rfl
      · rw [if_neg h2]
        have := publishReports_frame rest (published ++ [(g, e.report)]) g hrest
        unfold publishReports at this
        rw [this, getKey_append]
        rw [Option.not_isSome_iff_eq_none] at h2
        rw [h2, if_pos rfl]
        rfl
    · -- the expert is further down
      have hg : p.1 ≠ g := by
        simp only [List.map_cons, List.nodup_cons] at hnd
        intro hc
        exact hnd.1 (hc ▸ (List.mem_map.mpr ⟨(g, e), hmem', rfl⟩))
      unfold publishReports
      rw [List.foldl_cons]
      by_cases h1 : p.2.has_error || p.2.is_satisfied
      · rw [if_pos h1]
        exact ih published hndr hmem'
      · rw [if_neg h1]
        by_cases h2 : (getKey? published p.1).isSome
        · rw [if_pos h2]
          exact ih published hndr hmem'
        · rw [if_neg h2]
          have := ih (published ++ [(p.1, p.2.report)]) hndr hmem'
          unfold publishReports at this
          rw [this, getKey_append]
          cases hgk : getKey? published g with
          | some v => rfl
          | none => rw [if_neg hg]

/-! ## The per-slot message trace (for the portrait-accumulation claim)

`RoundAct` records, for one expert slot, what one round does to its
private message list: a review with a parsed verdict, a review whose LLM
call failed, a successful runner invocation, or an errored one.  These
are exactly the message transformations performed by
`build_reviewer_messages` / `expert_reviewer_node` / `deep_export_node`
on a single slot; `reviewer_slot_messages` below ties the trace model to
the reviewer node. -/

inductive RoundAct where
  | reviewed (ob rp : String) (sat : Bool) (reason resp : String)
  | reviewedFail (ob rp : String)
  | ranOk (lastMsg : String)
  | ranErr

/-- Does the act correspond to a reviewer pass in which the expert was
reviewed (i.e. its messages were injected)? -/
def isReviewAct : RoundAct → Bool
  | RoundAct.reviewed _ _ _ _ _ => true
  | RoundAct.reviewedFail _ _ => true
  | RoundAct.ranOk _ => false
  | RoundAct.ranErr => false

/-- The reviewer instruction prompt of the act is not itself the portrait
message (the prompt file is a fixed instruction template, not the
portrait). -/
def actPromptOk (portrait : String) : RoundAct → Bool
  | RoundAct.reviewed _ rp _ _ _ => decide (humanMsg rp ≠ portraitMsg portrait)
  | RoundAct.reviewedFail _ rp => decide (humanMsg rp ≠ portraitMsg portrait)
  | RoundAct.ranOk _ => true
  | RoundAct.ranErr => true

/-- Apply one round's transformation to a slot's message list. -/
def applyAct (portrait : String) (msgs : List Msg) : RoundAct → List Msg
  | RoundAct.reviewed ob rp sat reason resp =>
    let m1 := reviewInjectMsgs portrait rp ob msgs
    let m2 := m1 ++ [aiMsg resp]
    if sat then m2 else m2 ++ [humanMsg (reinvestigateMsgContent reason)]
  | RoundAct.reviewedFail ob rp => reviewInjectMsgs portrait rp ob msgs
  | RoundAct.ranOk last => msgs ++ [aiMsg last]
  | RoundAct.ranErr => msgs

/-- Apply a sequence of rounds. -/
def applyActs (portrait : String) (acts : List RoundAct) (msgs : List Msg) : List Msg :=
  acts.foldl (applyAct portrait) msgs

/-- The number of rounds in which the expert was reviewed. -/
def reviewedCount (acts : List RoundAct) : Nat := (acts.filter isReviewAct).length

theorem string_ne_of_head {a b : String} {c₁ c₂ : Char} {t₁ t₂ : List Char}
    (h₁ : a.data = c₁ :: t₁) (h₂ : b.data = c₂ :: t₂) (hne : c₁ ≠ c₂) : a ≠ b := by
  intro h
  subst h
  rw [h₁] at h₂
  injection h₂ with hc _
  exact hne hc

theorem data_head_append (s t : String) (c : Char) (rest : List Char)
    (h : s.data = c :: rest) : ∃ u, (s ++ t).data = c :: u :=
  ⟨rest ++ t.data, by rw [String.data_append, h]; rfl⟩

theorem otherMsgContent_head (ob : String) :
    ∃ t, (otherMsgContent ob).data = '你' :: t := by
  unfold otherMsgContent
  obtain ⟨u1, h1⟩ := data_head_append
    "你已经完成了审核，现在给你提供其他专家的报告，一共有" (toString ob.length) '你' _ rfl
  obtain ⟨u2, h2⟩ := data_head_append _ "份报告，分别如下:\n\n" '你' _ h1
  exact data_head_append _ ob '你' _ h2

theorem reinvestigateMsgContent_head (r : String) :
    ∃ t, (reinvestigateMsgContent r).data = '你' :: t := by
  unfold reinvestigateMsgContent
  obtain ⟨u1, h1⟩ := data_head_append
    "你已经查看了其他专家的报告，并基于以下原因提出了疑问：\n\n" r '你' _ rfl
  exact data_head_append _ _ '你' _ h1

theorem portraitMsgContent_head (p : String) :
    ∃ t, (portraitMsgContent p).data = '诊' :: t := by
  unfold portraitMsgContent
  exact data_head_append "诊断的信息如下:\n\n" p '诊' _ rfl

theorem aiMsg_ne_portrait (x portrait : String) : aiMsg x ≠ portraitMsg portrait := by
  intro h
  have := congrArg Msg.role h
  simp [aiMsg, portraitMsg, humanMsg] at this

theorem otherMsg_ne_portrait (ob portrait : String) :
    humanMsg (otherMsgContent ob) ≠ portraitMsg portrait := by
  intro h
  have hcontent : otherMsgContent ob = portraitMsgContent portrait :=
    congrArg Msg.content h
  obtain ⟨t₁, h₁⟩ := otherMsgContent_head ob
  obtain ⟨t₂, h₂⟩ := portraitMsgContent_head portrait
  exact string_ne_of_head h₁ h₂ (by decide) hcontent

theorem reinvMsg_ne_portrait (r portrait : String) :
    humanMsg (reinvestigateMsgContent r) ≠ portraitMsg portrait := by
  intro h
  have hcontent : reinvestigateMsgContent r = portraitMsgContent portrait :=
    congrArg Msg.content h
  obtain ⟨t₁, h₁⟩ := reinvestigateMsgContent_head r
  obtain ⟨t₂, h₂⟩ := portraitMsgContent_head portrait
  exact string_ne_of_head h₁ h₂ (by decide) hcontent

theorem count_singleton_ne (x y : Msg) (h : y ≠ x) : List.count x [y] = 0 := by
  rw [List.count_eq_zero]
  rw [List.mem_singleton]
  exact fun hc => h hc.symm

/-- The portrait message is inserted at position 1, and one reviewer pass
adds exactly one copy of it to the reviewed slot's messages. -/
theorem countPortrait_reviewInject (portrait rp ob : String) (msgs : List Msg)
    (hrp : humanMsg rp ≠ portraitMsg portrait) :
    (reviewInjectMsgs portrait rp ob msgs).count (portraitMsg portrait) =
      msgs.count (portraitMsg portrait) + 1 := by
  unfold reviewInjectMsgs pyInsert
  rw [List.count_append, List.count_append, List.count_cons]
  have hsplit : msgs.count (portraitMsg portrait) =
      (msgs.take 1).count (portraitMsg portrait) +
      (msgs.drop 1).count (portraitMsg portrait) := by
    conv_lhs => rw [← List.take_append_drop 1 msgs]
    rw [List.count_append]
  have h2 : List.count (portraitMsg portrait) [humanMsg (otherMsgContent ob), humanMsg rp] = 0 := by
    rw [List.count_cons]
    rw [count_singleton_ne _ _ hrp]
    have := otherMsg_ne_portrait ob portrait
    simp [this]
  rw [h2, hsplit]
  simp
  omega

theorem countPortrait_applyAct (portrait : String) (act : RoundAct) (msgs : List Msg)
    (h : actPromptOk portrait act = true) :
    (applyAct portrait msgs act).count (portraitMsg portrait) =
      msgs.count (portraitMsg portrait) + (if isReviewAct act then 1 else 0) := by
  cases act with
  | reviewed ob rp sat reason resp =>
    unfold applyAct
    have hrp : humanMsg rp ≠ portraitMsg portrait := of_decide_eq_true h
    by_cases hsat : sat = true
    · rw [hsat]
      simp only [if_true]
      rw [List.count_append, countPortrait_reviewInject portrait rp ob msgs hrp,
        count_singleton_ne _ _ (aiMsg_ne_portrait resp portrait)]
      simp [isReviewAct]
    · have hsat' : sat = false := by
        cases sat
        · rfl
        · exact absurd rfl hsat
      rw [hsat']
      simp only [Bool.false_eq_true, if_false]
      rw [List.count_append, List.count_append,
        countPortrait_reviewInject portrait rp ob msgs hrp,
        count_singleton_ne _ _ (aiMsg_ne_portrait resp portrait),
        count_singleton_ne _ _ (reinvMsg_ne_portrait reason portrait)]
      simp [isReviewAct]
  | reviewedFail ob rp =>
    unfold applyAct
    rw [countPortrait_reviewInject portrait rp ob msgs (of_decide_eq_true h)]
    simp [isReviewAct]
  | ranOk last =>
    unfold applyAct
    rw [List.count_append, count_singleton_ne _ _ (aiMsg_ne_portrait last portrait)]
    simp [isReviewAct]
  | ranErr =>
    simp [applyAct, isReviewAct]

theorem countPortrait_applyActs (portrait : String) (acts : List RoundAct) :
    ∀ msgs : List Msg, (∀ a ∈ acts, actPromptOk portrait a = true) →
      (applyActs portrait acts msgs).count (portraitMsg portrait) =
        msgs.count (portraitMsg portrait) + reviewedCount acts := by
  induction acts with
  | nil => intro msgs _; simp [applyActs, reviewedCount]
  | cons a rest ih =>
    intro msgs hok
    unfold applyActs
    rw [List.foldl_cons]
    have h1 := countPortrait_applyAct portrait a msgs (hok a (List.mem_cons_self _ _))
    have h2 := ih (applyAct portrait msgs a) (fun x hx => hok x (List.mem_cons_of_mem _ hx))
    unfold applyActs at h2
    rw [h2, h1]
    unfold reviewedCount
    by_cases hr : isReviewAct a
    · rw [List.filter_cons_of_pos hr]
      simp [hr]
      omega
    · rw [List.filter_cons_of_neg hr]
      simp [hr]

/-- Lookup through a key-preserving map: if `f` keeps every entry's key,
then looking up `k` after mapping yields `f` applied to the entry found
before mapping. -/
theorem getKey_map_of_fst {β γ : Type} (l : List (String × β)) (f : String × β → String × γ)
    (hf : ∀ p, (f p).1 = p.1) (k : String) (v : β) (h : getKey? l k = some v) :
    getKey? (l.map f) k = some (f (k, v)).2 := by
  induction l with
  | nil => exact absurd h (by simp [getKey?])
  | cons p t ih =>
    obtain ⟨k₀, v₀⟩ := p
    rw [getKey_cons] at h
    rw [List.map_cons]
    by_cases hk : k₀ = k
    · subst hk
      rw [if_pos rfl] at h
      cases h
      have h1 := hf (k₀, v)
      cases hfp : f (k₀, v) with
      | mk a b =>
        rw [hfp] at h1
        simp only at h1
        subst h1
        rw [getKey_cons, if_pos rfl]
    · rw [if_neg hk] at h
      have h1 := hf (k₀, v₀)
      cases hfp : f (k₀, v₀) with
      | mk a b =>
        rw [hfp] at h1
        simp only at h1
        subst h1
        rw [getKey_cons, if_neg hk]
        exact ih h

/-- The reviewer node's effect on one reviewed slot's message list is
exactly one `RoundAct.reviewed` step of the trace model. -/
theorem reviewer_slot_messages (rp : String) (verdict : String → ReviewOutcome)
    (s : MDTState) (g : String) (e : ExpertSlot)
    (hmem : getKey? s.expert_pool g = some e)
    (herr : e.has_error = false) (hsat : e.is_satisfied = false) :
    ∃ e', getKey? (expert_reviewer_node rp verdict s).expert_pool g = some e' ∧
      e'.messages = match verdict g with
        | ReviewOutcome.ok sat reason resp =>
          applyAct s.patient_portrait e.messages
            (RoundAct.reviewed (otherReportsBlock s.expert_pool g) rp sat reason resp)
        | ReviewOutcome.failure =>
          applyAct s.patient_portrait e.messages
            (RoundAct.reviewedFail (otherReportsBlock s.expert_pool g) rp) := by
  have hskip : (e.has_error || e.is_satisfied) = false := by rw [herr, hsat]; rfl
  -- the slot after message injection (build_reviewer_messages)
  have hbuild : getKey? ((build_reviewer_messages rp s).1.expert_pool) g =
      some { e with messages := (reviewInjectMsgs s.patient_portrait rp
        (otherReportsBlock s.expert_pool g) e.messages) } := by
    have hinj := getKey_map_of_fst s.expert_pool
      (fun p => if p.2.has_error || p.2.is_satisfied then p
        else (p.1, { p.2 with
          messages := (reviewInjectMsgs s.patient_portrait rp
            (otherReportsBlock s.expert_pool p.1) p.2.messages) }))
      (fun p => by
        by_cases hc : (p.2.has_error || p.2.is_satisfied) = true
        · simp only [if_pos hc]
        · simp only [if_neg hc])
      g e hmem
    rw [show ((build_reviewer_messages rp s).1.expert_pool) =
      (s.expert_pool.map fun p => if p.2.has_error || p.2.is_satisfied then p
        else (p.1, { p.2 with
          messages := (reviewInjectMsgs s.patient_portrait rp
            (otherReportsBlock s.expert_pool p.1) p.2.messages) })) from rfl]
    rw [hinj]
    simp [hskip]
  -- the slot after verdict processing
  rw [reviewer_pool_eq, processReviews_pool]
  have hproc := getKey_map_of_fst ((build_reviewer_messages rp s).1.expert_pool)
    (fun p => if p.2.has_error || p.2.is_satisfied then p
      else (p.1, (applyVerdict (verdict p.1) p.2).1))
    (fun p => by
      by_cases hc : (p.2.has_error || p.2.is_satisfied) = true
      · simp only [if_pos hc]
      · simp only [if_neg hc])
    g _ hbuild
  rw [hproc]
  refine ⟨_, rfl, ?_⟩
  have hskip2 : (({ e with messages := (reviewInjectMsgs s.patient_portrait rp
      (otherReportsBlock s.expert_pool g) e.messages) } : ExpertSlot).has_error ||
      ({ e with messages := (reviewInjectMsgs s.patient_portrait rp
        (otherReportsBlock s.expert_pool g) e.messages) } : ExpertSlot).is_satisfied) = false :=
    hskip
  simp only [hskip2, Bool.false_eq_true, if_false]
  cases hv : verdict g with
  | failure => rfl
  | ok sat reason resp =>
    unfold applyVerdict applyAct
    by_cases hsatv : sat = true
    · rw [hsatv]
      rfl
    · have hsatf : sat = false := by
        cases sat
        · rfl
        · exact absurd rfl hsatv
      rw [hsatf]
      rfl

/-! ## Scanner metatheory

These lemmas characterize the `<ref>ident.digits</ref>` scanner: what a
successful match looks like, that appending text on the right preserves
matches, and that a text that is a proper prefix of a match contains no
match at all.  They drive the analysis of repeated reference resolution.
-/

theorem stripLit_some_eq : ∀ (p cs r : List Char), stripLit p cs = some r → cs = p ++ r := by
  intro p
  induction p with
  | nil =>
    intro cs r h
    cases h
    rfl
  | cons a ps ih =>
    intro cs r h
    cases cs with
    | nil => exact absurd h (by simp [stripLit])
    | cons c cs' =>
      unfold stripLit at h
      by_cases hc : c = a
      · rw [if_pos hc] at h
        subst hc
        rw [List.cons_append]
        rw [ih cs' r h]
      · rw [if_neg hc] at h
        cases h

theorem stripLit_self_append : ∀ (p u : List Char), stripLit p (p ++ u) = some u := by
  intro p
  induction p with
  | nil => intro u; rfl
  | cons a ps ih =>
    intro u
    rw [List.cons_append]
    unfold stripLit
    rw [if_pos rfl]
    exact ih u

theorem parseRefAt_nil : parseRefAt [] = none := rfl

theorem parseRefAt_ne_lt (c : Char) (cs : List Char) (h : c ≠ '<') :
    parseRefAt (c :: cs) = none := by
  unfold parseRefAt refOpen
  rw [show stripLit ['<', 'r', 'e', 'f', '>'] (c :: cs) = none from by
    unfold stripLit
    rw [if_neg h]]

theorem parseRefAt_single_lt : parseRefAt ['<'] = none := rfl

theorem parseRefAt_lt_ne (c : Char) (cs : List Char) (h : c ≠ 'r') :
    parseRefAt ('<' :: c :: cs) = none := by
  unfold parseRefAt refOpen
  rw [show stripLit ['<', 'r', 'e', 'f', '>'] ('<' :: c :: cs) = none from by
    unfold stripLit
    rw [if_pos rfl]
    unfold stripLit
    rw [if_neg h]]

/-- takeWhile/dropWhile across an append, when the scan is blocked inside
the left part. -/
theorem takeWhile_append_blocked (q : Char → Bool) :
    ∀ (l s : List Char) (c : Char) (r : List Char), l.dropWhile q = c :: r →
      (l ++ s).takeWhile q = l.takeWhile q ∧ (l ++ s).dropWhile q = c :: (r ++ s) := by
  intro l
  induction l with
  | nil =>
    intro s c r h
    exact absurd h (by simp [List.dropWhile])
  | cons a l' ih =>
    intro s c r h
    by_cases hq : q a
    · rw [List.dropWhile_cons, if_pos hq] at h
      obtain ⟨h1, h2⟩ := ih s c r h
      constructor
      · rw [List.cons_append, List.takeWhile_cons, if_pos hq, List.takeWhile_cons, if_pos hq, h1]
      · rw [List.cons_append, List.dropWhile_cons, if_pos hq, h2]
    · rw [List.dropWhile_cons, if_neg hq] at h
      cases h
      constructor
      · rw [List.cons_append, List.takeWhile_cons, if_neg hq, List.takeWhile_cons, if_neg hq]
      · rw [List.cons_append, List.dropWhile_cons, if_neg hq]

/-- takeWhile/dropWhile on `good ++ b :: rest` where all of `good`
satisfies the predicate and `b` does not. -/
theorem takeWhile_run (q : Char → Bool) :
    ∀ (good : List Char) (b : Char) (rest : List Char),
      (∀ c ∈ good, q c) → ¬q b →
      (good ++ b :: rest).takeWhile q = good ∧ (good ++ b :: rest).dropWhile q = b :: rest := by
  intro good
  induction good with
  | nil =>
    intro b rest _ hb
    constructor
    · rw [List.nil_append, List.takeWhile_cons, if_neg hb]
    · rw [List.nil_append, List.dropWhile_cons, if_neg hb]
  | cons a g ih =>
    intro b rest hg hb
    have ha : q a := hg a (List.mem_cons_self _ _)
    obtain ⟨h1, h2⟩ := ih b rest (fun c hc => hg c (List.mem_cons_of_mem _ hc)) hb
    constructor
    · rw [List.cons_append, List.takeWhile_cons, if_pos ha, h1]
    · rw [List.cons_append, List.dropWhile_cons, if_pos ha, h2]

theorem isEmpty_false_of_ne_nil {l : List Char} (h : l ≠ []) : l.isEmpty = false := by
  cases l with
  | nil => exact absurd rfl h
  | cons a t => rfl

/-- Parsing a well-formed match: `<ref>I.D</ref>` followed by anything. -/
theorem parseRefAt_of_shape (I D u : List Char)
    (hI : I ≠ []) (hIc : ∀ c ∈ I, isIdentChar c)
    (hD : D ≠ []) (hDc : ∀ c ∈ D, Char.isDigit c) :
    parseRefAt (refOpen ++ (I ++ '.' :: (D ++ (refClose ++ u)))) =
      some (I ++ '.' :: D, u) := by
  have hIe := isEmpty_false_of_ne_nil hI
  have hDe := isEmpty_false_of_ne_nil hD
  obtain ⟨ht1, hd1⟩ := takeWhile_run isIdentChar I '.' (D ++ (refClose ++ u)) hIc (by decide)
  have hshape : D ++ (refClose ++ u) = D ++ '<' :: ('/' :: 'r' :: 'e' :: 'f' :: '>' :: u) := rfl
  obtain ⟨ht2, hd2⟩ := takeWhile_run Char.isDigit D '<' ('/' :: 'r' :: 'e' :: 'f' :: '>' :: u)
    hDc (by decide)
  have hstrip : stripLit refClose ('<' :: ('/' :: 'r' :: 'e' :: 'f' :: '>' :: u)) = some u :=
    stripLit_self_append refClose u
  rw [hshape] at hd1 ht1
  simp only [parseRefAt, stripLit_self_append, ht1, hd1, hshape, ht2, hd2, hstrip, hIe, hDe,
    Bool.false_eq_true, if_false]

/-- Decomposition of a successful parse. -/
theorem parseRefAt_shape (cs : List Char) (k r : List Char)
    (h : parseRefAt cs = some (k, r)) :
    ∃ I D, I ≠ [] ∧ (∀ c ∈ I, isIdentChar c) ∧ D ≠ [] ∧ (∀ c ∈ D, Char.isDigit c) ∧
      cs = refOpen ++ (I ++ '.' :: (D ++ (refClose ++ r))) ∧ k = I ++ '.' :: D := by
  unfold parseRefAt at h
  cases hs : stripLit refOpen cs with
  | none => rw [hs] at h; exact absurd h (by simp)
  | some r1 =>
    rw [hs] at h
    simp only [] at h
    split at h
    · next r3 hd =>
      by_cases hIe : (r1.takeWhile isIdentChar).isEmpty = true
      · simp only [hIe, if_true] at h
        exact absurd h (by simp)
      · simp only [hIe, Bool.false_eq_true, if_false] at h
        by_cases hDe : (r3.takeWhile Char.isDigit).isEmpty = true
        · simp only [hDe, if_true] at h
          exact absurd h (by simp)
        · simp only [hDe, Bool.false_eq_true, if_false] at h
          cases hc : stripLit refClose (r3.dropWhile Char.isDigit) with
          | none =>
            rw [hc] at h
            exact absurd h (by simp)
          | some r5 =>
            rw [hc] at h
            simp only [Option.some.injEq, Prod.mk.injEq] at h
            obtain ⟨hk, hr⟩ := h
            subst hr
            refine ⟨r1.takeWhile isIdentChar, r3.takeWhile Char.isDigit,
              by simpa using hIe, fun c hcm => List.mem_takeWhile_imp hcm,
              by simpa using hDe, fun c hcm => List.mem_takeWhile_imp hcm, ?_, hk.symm⟩
            rw [stripLit_some_eq _ _ _ hs]
            congr 1
            conv_lhs => rw [← List.takeWhile_append_dropWhile (p := isIdentChar) (l := r1)]
            rw [hd]
            congr 1
            conv_lhs => rw [← List.takeWhile_append_dropWhile (p := Char.isDigit) (l := r3)]
            rw [stripLit_some_eq _ _ _ hc]
    · next hd => exact absurd h (by simp)

/-- A successful parse is stable under appending text on the right. -/
theorem parseRefAt_append (cs s k r : List Char) (h : parseRefAt cs = some (k, r)) :
    parseRefAt (cs ++ s) = some (k, r ++ s) := by
  obtain ⟨I, D, hI, hIc, hD, hDc, hcs, hk⟩ := parseRefAt_shape cs k r h
  subst hk
  rw [hcs]
  have hassoc : (refOpen ++ (I ++ '.' :: (D ++ (refClose ++ r)))) ++ s =
      refOpen ++ (I ++ '.' :: (D ++ (refClose ++ (r ++ s)))) := by
    simp [List.append_assoc]
  rw [hassoc, parseRefAt_of_shape I D (r ++ s) hI hIc hD hDc]

/-- A successful parse consumes at least the 14 characters of the
delimiters. -/
theorem parseRefAt_length (cs k r : List Char) (h : parseRefAt cs = some (k, r)) :
    r.length < cs.length := by
  obtain ⟨I, D, hI, -, hD, -, hcs, -⟩ := parseRefAt_shape cs k r h
  rw [hcs]
  simp [refOpen, refClose]
  omega

theorem refsGo_nil : ∀ fuel, refsGo fuel [] = [] := by
  intro fuel
  cases fuel with
  | zero => rfl
  | succ f => rfl

/-- The scan result does not depend on the fuel, as long as the fuel
covers the input length. -/
theorem refsGo_fuel_eq : ∀ (f₁ f₂ : Nat) (cs : List Char),
    cs.length ≤ f₁ → cs.length ≤ f₂ → refsGo f₁ cs = refsGo f₂ cs := by
  intro f₁
  induction f₁ with
  | zero =>
    intro f₂ cs h1 _
    have : cs = [] := by
      cases cs with
      | nil => rfl
      | cons a t => simp at h1
    subst this
    rw [refsGo_nil, refsGo_nil]
  | succ f₁ ih =>
    intro f₂ cs h1 h2
    cases cs with
    | nil => rw [refsGo_nil, refsGo_nil]
    | cons c cs' =>
      cases f₂ with
      | zero => simp at h2
      | succ f₂' =>
        have step : ∀ fuel, refsGo (fuel + 1) (c :: cs') =
            match parseRefAt (c :: cs') with
            | some (k, rest) => String.mk k :: refsGo fuel rest
            | none => refsGo fuel cs' := fun _ => rfl
        rw [step f₁, step f₂']
        cases hp : parseRefAt (c :: cs') with
        | some p =>
          obtain ⟨k, rest⟩ := p
          have hlen := parseRefAt_length _ _ _ hp
          simp only [List.length_cons] at hlen h1 h2
          exact congrArg (String.mk k :: ·) (ih f₂' rest (by omega) (by omega))
        | none =>
          simp only [List.length_cons] at h1 h2
          exact ih f₂' cs' (by omega) (by omega)

theorem findRefs_nil : findRefs [] = [] := rfl

theorem findRefs_cons_some (c : Char) (cs : List Char) (k rest : List Char)
    (h : parseRefAt (c :: cs) = some (k, rest)) :
    findRefs (c :: cs) = String.mk k :: findRefs rest := by
  have hlen := parseRefAt_length _ _ _ h
  simp only [List.length_cons] at hlen
  have step : refsGo (cs.length + 1) (c :: cs) =
      match parseRefAt (c :: cs) with
      | some (k, rest) => String.mk k :: refsGo cs.length rest
      | none => refsGo cs.length cs := rfl
  unfold findRefs
  rw [show (c :: cs).length = cs.length + 1 from rfl, step, h]
  exact congrArg (String.mk k :: ·) (refsGo_fuel_eq cs.length rest.length rest
    (by omega) (le_refl _))

theorem findRefs_cons_none (c : Char) (cs : List Char)
    (h : parseRefAt (c :: cs) = none) :
    findRefs (c :: cs) = findRefs cs := by
  have step : refsGo (cs.length + 1) (c :: cs) =
      match parseRefAt (c :: cs) with
      | some (k, rest) => String.mk k :: refsGo cs.length rest
      | none => refsGo cs.length cs := rfl
  unfold findRefs
  rw [show (c :: cs).length = cs.length + 1 from rfl, step, h]

theorem findRefs_nil_of_all_parse_none :
    ∀ (cs : List Char), (∀ w, w <:+ cs → parseRefAt w = none) → findRefs cs = [] := by
  intro cs
  induction cs with
  | nil => intro _; rfl
  | cons c cs' ih =>
    intro hall
    rw [findRefs_cons_none c cs' (hall _ (List.suffix_refl _))]
    exact ih (fun w hw => hall w (List.suffix_cons_iff.mpr (Or.inr hw)))

/-- Any strict initial part of a list headed by a non-`<` character fails
to parse. -/
theorem parse_none_of_head_ne (h₀ : Char) (t : List Char) (hne : h₀ ≠ '<') :
    ∀ (w c' : List Char), w ++ c' = h₀ :: t → parseRefAt w = none := by
  intro w c' hw
  cases w with
  | nil => exact parseRefAt_nil
  | cons w₀ w' =>
    rw [List.cons_append] at hw
    injection hw with h1 _
    exact parseRefAt_ne_lt w₀ w' (h1 ▸ hne)

/-- Suffixes of an append decompose. -/
theorem suffix_append_cases {α : Type} :
    ∀ (xs ys v : List α), v <:+ xs ++ ys →
      v <:+ ys ∨ ∃ x, x <:+ xs ∧ x ≠ [] ∧ v = x ++ ys := by
  intro xs
  induction xs with
  | nil =>
    intro ys v hv
    exact Or.inl (by simpa using hv)
  | cons a xs' ih =>
    intro ys v hv
    rw [List.cons_append] at hv
    rcases List.suffix_cons_iff.mp hv with heq | hs
    · exact Or.inr ⟨a :: xs', List.suffix_refl _, by simp, by rw [heq, List.cons_append]⟩
    · rcases ih ys v hs with h | ⟨x, hx, hxne, rfl⟩
      · exact Or.inl h
      · exact Or.inr ⟨x, List.suffix_cons_iff.mpr (Or.inr hx), hxne, rfl⟩

/-- No strict initial part of any proper suffix of the matched pattern
parses: every position after the start of `<ref>I.D</ref>` fails. -/
theorem parse_none_of_in_tail (I D : List Char)
    (hIc : ∀ c ∈ I, isIdentChar c) (hDc : ∀ c ∈ D, Char.isDigit c) :
    ∀ v, v <:+ ('r' :: 'e' :: 'f' :: '>' :: (I ++ '.' :: (D ++ refClose))) →
      ∀ (w c' : List Char), c' ≠ [] → w ++ c' = v → parseRefAt w = none := by
  intro v hv w c' hc' hw
  rcases List.suffix_cons_iff.mp hv with heq | hv1
  · exact parse_none_of_head_ne 'r' _ (by decide) w c' (by rw [hw, heq])
  rcases List.suffix_cons_iff.mp hv1 with heq | hv2
  · exact parse_none_of_head_ne 'e' _ (by decide) w c' (by rw [hw, heq])
  rcases List.suffix_cons_iff.mp hv2 with heq | hv3
  · exact parse_none_of_head_ne 'f' _ (by decide) w c' (by rw [hw, heq])
  rcases List.suffix_cons_iff.mp hv3 with heq | hv4
  · exact parse_none_of_head_ne '>' _ (by decide) w c' (by rw [hw, heq])
  -- v is a suffix of I ++ '.' :: (D ++ refClose)
  rcases suffix_append_cases I ('.' :: (D ++ refClose)) v hv4 with hv5 | ⟨I₂, hI₂, hI₂ne, rfl⟩
  · rcases List.suffix_cons_iff.mp hv5 with heq | hv6
    · exact parse_none_of_head_ne '.' _ (by decide) w c' (by rw [hw, heq])
    rcases suffix_append_cases D refClose v hv6 with hv7 | ⟨D₂, hD₂, hD₂ne, rfl⟩
    · -- v is a suffix of `</ref>`
      rcases List.suffix_cons_iff.mp hv7 with heq | hv8
      · -- v = `</ref>` itself: only `<` or `</`-headed parts, all fail
        rw [heq] at hw
        cases w with
        | nil => exact parseRefAt_nil
        | cons w₀ w' =>
          rw [List.cons_append] at hw
          injection hw with h1 h2
          subst h1
          cases w' with
          | nil => exact parseRefAt_single_lt
          | cons w₁ w'' =>
            rw [List.cons_append] at h2
            injection h2 with h3 _
            subst h3
            exact parseRefAt_lt_ne '/' w'' (by decide)
      rcases List.suffix_cons_iff.mp hv8 with heq | hv9
      · exact parse_none_of_head_ne '/' _ (by decide) w c' (by rw [hw, heq])
      rcases List.suffix_cons_iff.mp hv9 with heq | hv10
      · exact parse_none_of_head_ne 'r' _ (by decide) w c' (by rw [hw, heq])
      rcases List.suffix_cons_iff.mp hv10 with heq | hv11
      · exact parse_none_of_head_ne 'e' _ (by decide) w c' (by rw [hw, heq])
      rcases List.suffix_cons_iff.mp hv11 with heq | hv12
      · exact parse_none_of_head_ne 'f' _ (by decide) w c' (by rw [hw, heq])
      rcases List.suffix_cons_iff.mp hv12 with heq | hv13
      · exact parse_none_of_head_ne '>' _ (by decide) w c' (by rw [hw, heq])
      · have : v = [] := List.eq_nil_of_suffix_nil hv13
        rw [this] at hw
        rcases List.append_eq_nil.mp hw with ⟨-, h2⟩
        exact absurd h2 hc'
    · -- v = D₂ ++ `</ref>` with D₂ a nonempty run of digits
      cases D₂ with
      | nil => exact absurd rfl hD₂ne
      | cons d₀ D₂' =>
        have hd₀ : Char.isDigit d₀ := hDc d₀ (hD₂.mem (List.mem_cons_self _ _))
        have hne : d₀ ≠ '<' := by
          intro heq
          rw [heq] at hd₀
          exact absurd hd₀ (by decide)
        exact parse_none_of_head_ne d₀ _ hne w c' (by rw [hw, List.cons_append])
  · -- v = I₂ ++ '.' :: … with I₂ a nonempty run of identifier characters
    cases I₂ with
    | nil => exact absurd rfl hI₂ne
    | cons i₀ I₂' =>
      have hi₀ : isIdentChar i₀ := hIc i₀ (hI₂.mem (List.mem_cons_self _ _))
      have hne : i₀ ≠ '<' := by
        intro heq
        rw [heq] at hi₀
        exact absurd hi₀ (by decide)
      exact parse_none_of_head_ne i₀ _ hne w c' (by rw [hw, List.cons_append])

/-- A text that is a nonempty strict prefix of a well-formed match, and
itself fails to parse, contains no match at all. -/
theorem findRefs_nil_of_proper_pre (I D : List Char)
    (hIc : ∀ c ∈ I, isIdentChar c) (hDc : ∀ c ∈ D, Char.isDigit c) :
    ∀ (cs a' : List Char), a' ≠ [] →
      cs ++ a' = refOpen ++ (I ++ '.' :: (D ++ refClose)) →
      parseRefAt cs = none → findRefs cs = [] := by
  intro cs a' ha hM hnone
  apply findRefs_nil_of_all_parse_none
  intro w hw
  obtain ⟨d, hd⟩ := hw
  by_cases hdnil : d = []
  · subst hdnil
    rw [List.nil_append] at hd
    subst hd
    exact hnone
  · have hsub : w ++ a' <:+ refOpen ++ (I ++ '.' :: (D ++ refClose)) := by
      refine ⟨d, ?_⟩
      rw [← hM, ← hd, List.append_assoc]
    have hwlt : w.length < cs.length := by
      have hlen : d.length + w.length = cs.length := by
        rw [← hd]
        simp
      cases d with
      | nil => exact absurd rfl hdnil
      | cons x xs => simp at hlen; omega
    have hshape : refOpen ++ (I ++ '.' :: (D ++ refClose)) =
        '<' :: ('r' :: 'e' :: 'f' :: '>' :: (I ++ '.' :: (D ++ refClose))) := rfl
    rw [hshape] at hsub
    rcases List.suffix_cons_iff.mp hsub with heq | hs
    · exfalso
      have h1 : (w ++ a').length = (cs ++ a').length := by
        rw [heq, hM, hshape]
      simp at h1
      omega
    · exact parse_none_of_in_tail I D hIc hDc _ hs w a' ha rfl

/-- The boundary lemma: if a text fails to parse at its start but parses
once something is appended, the text contains no match at all. -/
theorem findRefs_nil_of_boundary (cs s k r : List Char)
    (hnone : parseRefAt cs = none)
    (hsome : parseRefAt (cs ++ s) = some (k, r)) : findRefs cs = [] := by
  obtain ⟨I, D, hI, hIc, hD, hDc, hcs, -⟩ := parseRefAt_shape _ _ _ hsome
  have hM : cs ++ s = (refOpen ++ (I ++ '.' :: (D ++ refClose))) ++ r := by
    rw [hcs]
    simp [List.append_assoc]
  rcases List.append_eq_append_iff.mp hM with ⟨a', hMa, hsa⟩ | ⟨c', hcs2, hr⟩
  · by_cases hanil : a' = []
    · subst hanil
      rw [List.append_nil] at hMa
      exfalso
      have : parseRefAt cs = some (I ++ '.' :: D, []) := by
        rw [← hMa] at *
        have hre : refOpen ++ (I ++ '.' :: (D ++ refClose)) =
            refOpen ++ (I ++ '.' :: (D ++ (refClose ++ []))) := by simp
        rw [hMa, hre]
        exact parseRefAt_of_shape I D [] hI hIc hD hDc
      rw [this] at hnone
      cases hnone
    · exact findRefs_nil_of_proper_pre I D hIc hDc cs a' hanil hMa.symm hnone
  · exfalso
    have : parseRefAt cs = some (I ++ '.' :: D, c') := by
      rw [hcs2]
      have hre : (refOpen ++ (I ++ '.' :: (D ++ refClose))) ++ c' =
          refOpen ++ (I ++ '.' :: (D ++ (refClose ++ c'))) := by
        simp [List.append_assoc]
      rw [hre]
      exact parseRefAt_of_shape I D c' hI hIc hD hDc
    rw [this] at hnone
    cases hnone

/-- Every reference found in a text is still found after appending more
text on the right. -/
theorem mem_findRefs_append :
    ∀ (n : Nat) (cs : List Char), cs.length = n → ∀ (s : List Char) (k : String),
      k ∈ findRefs cs → k ∈ findRefs (cs ++ s) := by
  intro n
  induction n using Nat.strong_induction_on with
  | _ n ih =>
    intro cs hn s k hk
    cases cs with
    | nil =>
      rw [findRefs_nil] at hk
      exact absurd hk (List.not_mem_nil _)
    | cons c cs' =>
      simp only [List.length_cons] at hn
      cases hp : parseRefAt (c :: cs') with
      | some p =>
        obtain ⟨k₀, rest⟩ := p
        rw [findRefs_cons_some c cs' k₀ rest hp] at hk
        have hap := parseRefAt_append (c :: cs') s k₀ rest hp
        rw [show (c :: cs') ++ s = c :: (cs' ++ s) from rfl] at hap
        rw [show (c :: cs') ++ s = c :: (cs' ++ s) from rfl,
          findRefs_cons_some c (cs' ++ s) k₀ (rest ++ s) hap]
        rcases List.mem_cons.mp hk with rfl | hk'
        · exact List.mem_cons_self _ _
        · have hrl := parseRefAt_length _ _ _ hp
          simp only [List.length_cons] at hrl
          exact List.mem_cons_of_mem _
            (ih rest.length (by omega) rest rfl s k hk')
      | none =>
        rw [findRefs_cons_none c cs' hp] at hk
        cases hp2 : parseRefAt (c :: (cs' ++ s)) with
        | none =>
          rw [show (c :: cs') ++ s = c :: (cs' ++ s) from rfl,
            findRefs_cons_none c (cs' ++ s) hp2]
          exact ih cs'.length (by omega) cs' rfl s k hk
        | some p =>
          obtain ⟨k', r'⟩ := p
          have hp2' : parseRefAt ((c :: cs') ++ s) = some (k', r') := by
            rw [show (c :: cs') ++ s = c :: (cs' ++ s) from rfl]
            exact hp2
          have hnil := findRefs_nil_of_boundary (c :: cs') s k' r' hp hp2'
          rw [findRefs_cons_none c cs' hp] at hnil
          rw [hnil] at hk
          exact absurd hk (List.not_mem_nil _)

/-! ## Additional helpers for the claim theorems -/

/-- The active experts: slots without an error flag, as the reviewer's
consensus computation filters them. -/
def activeExperts (pool : List (String × ExpertSlot)) : List ExpertSlot :=
  (pool.map Prod.snd).filter fun e => !e.has_error

theorem consensusOf_iff_active (pool : List (String × ExpertSlot)) :
    consensusOf pool = true ↔
      (activeExperts pool = [] ∨ ∀ e ∈ activeExperts pool, e.is_satisfied = true) := by
  unfold consensusOf activeExperts
  by_cases hemp : ((pool.map Prod.snd).filter fun e => !e.has_error).isEmpty
  · rw [if_pos hemp]
    simp only [true_iff]
    exact Or.inl (List.isEmpty_iff.mp hemp)
  · rw [if_neg hemp]
    rw [List.all_eq_true]
    constructor
    · intro hall
      exact Or.inr hall
    · rintro (h | h)
      · exact absurd (by rw [h]; rfl) hemp
      · exact h

theorem filterMap_nil_of_none {α β : Type} (f : α → Option β) :
    ∀ l : List α, (∀ a ∈ l, f a = none) → l.filterMap f = [] := by
  intro l
  induction l with
  | nil => intro _; rfl
  | cons a t ih =>
    intro h
    rw [List.filterMap_cons, h a (List.mem_cons_self _ _)]
    exact ih fun x hx => h x (List.mem_cons_of_mem _ hx)

theorem none_of_filterMap_nil {α β : Type} (f : α → Option β) :
    ∀ l : List α, l.filterMap f = [] → ∀ a ∈ l, f a = none := by
  intro l
  induction l with
  | nil => intro _ a ha; exact absurd ha (List.not_mem_nil a)
  | cons x t ih =>
    intro h a ha
    rw [List.filterMap_cons] at h
    cases hfx : f x with
    | some b =>
      rw [hfx] at h
      exact absurd h (by simp)
    | none =>
      rw [hfx] at h
      rcases List.mem_cons.mp ha with rfl | ha'
      · exact hfx
      · exact ih h a ha'

/-! ## The claims -/

/-- Claim C1: for every summarizer output and the evidence mapping built by
`summary_node` (`buildEvidenceMapping`: keys `group_id.index`, index from 1,
groups in ascending `group_id`), `_resolve_evidence_references` returns the
text unchanged when no referenced key is in the mapping, and otherwise the
unchanged text followed by the trailing evidence section holding exactly one
line `[key] evidence` per distinct referenced key present in the mapping, in
first-appearance order (`citedLines`); keys absent from the mapping
contribute no line, and a text with no `<ref>ident.digits</ref>` token is
returned unchanged. -/
theorem claim1_reference_resolution (llmOutput : String)
    (reports : List (String × String)) (expert_pool : List (String × ExpertSlot)) :
    (_resolve_evidence_references llmOutput (buildEvidenceMapping reports expert_pool) =
      if citedLines llmOutput (buildEvidenceMapping reports expert_pool) = [] then llmOutput
      else llmOutput ++ evidenceSectionHeader ++
        String.intercalate "\n"
          (citedLines llmOutput (buildEvidenceMapping reports expert_pool))) ∧
    (findRefs llmOutput.data = [] →
      _resolve_evidence_references llmOutput (buildEvidenceMapping reports expert_pool) =
        llmOutput) := by
  refine ⟨resolve_characterization _ _, ?_⟩
  intro h
  have hcl : citedLines llmOutput (buildEvidenceMapping reports expert_pool) = [] := by
    unfold citedLines
    rw [h]
    rfl
  rw [resolve_characterization, hcl]
  simp

/-- Claim C2: after every reviewer pass, `round_count` is exactly one greater
than before, `consensus_reached` holds iff the active (non-errored) slots of
the updated pool are empty or all satisfied, and consequently when consensus
is reached every non-errored expert of the updated pool is satisfied. -/
theorem claim2_reviewer_consensus (rp : String) (verdict : String → ReviewOutcome)
    (s : MDTState) :
    (expert_reviewer_node rp verdict s).round_count = s.round_count + 1 ∧
    ((expert_reviewer_node rp verdict s).consensus_reached = true ↔
      (activeExperts (expert_reviewer_node rp verdict s).expert_pool = [] ∨
        ∀ e ∈ activeExperts (expert_reviewer_node rp verdict s).expert_pool,
          e.is_satisfied = true)) ∧
    ((expert_reviewer_node rp verdict s).consensus_reached = true →
      ∀ p ∈ (expert_reviewer_node rp verdict s).expert_pool,
        p.2.has_error = false → p.2.is_satisfied = true) := by
  refine ⟨reviewer_round_count rp verdict s, ?_, ?_⟩
  · rw [reviewer_consensus_eq]
    exact consensusOf_iff_active _
  · intro hc p hp he
    have h2 := (consensusOf_iff _).mp (by rw [← reviewer_consensus_eq]; exact hc) p hp
    rcases h2 with h | h
    · rw [he] at h
      exact absurd h (by decide)
    · exact h

/-- Claim C3: the decision-logging router returns the state unchanged, the
conditional-edge router answers `"end"` exactly when consensus is reached or
`round_count` has reached `max_rounds` and `"continue"` otherwise, and —
since every reviewer pass increments `round_count` by one and triage starts
it at 1 — the fan-out/review loop runs at most `max_rounds` cycles. -/
theorem claim3_router_loop_bound (oracle : Nat → CycleOracle) (s : MDTState)
    (hrc : s.round_count = 1) (hmr : 1 ≤ s.max_rounds) :
    (∀ st : MDTState, routing_decision_node st = st) ∧
    (∀ st : MDTState, should_continue_or_end st = "end" ↔
      (st.consensus_reached = true ∨ st.max_rounds ≤ st.round_count)) ∧
    (∀ st : MDTState, should_continue_or_end st = "continue" ↔
      (st.consensus_reached = false ∧ st.round_count < st.max_rounds)) ∧
    runCycles oracle s ≤ s.max_rounds := by
  refine ⟨fun _ => rfl, ?_, should_continue_iff, ?_⟩
  · intro st
    unfold should_continue_or_end
    by_cases hc : st.consensus_reached
    · rw [if_pos hc]
      simp [hc]
    · rw [if_neg hc]
      by_cases hr : st.round_count ≥ st.max_rounds
      · rw [if_pos hr]
        constructor
        · intro _
          exact Or.inr hr
        · intro _
          rfl
      · rw [if_neg hr]
        constructor
        · intro h
          exact absurd h (by decide)
        · rintro (h | h)
          · exact absurd h hc
          · omega
  · have hb := runCycles_le oracle (s.max_rounds - s.round_count) s rfl
    omega

def claim3StateW : MDTState := triage_to_mdt_node ["group_1"] 3 "患者画像" ""

def claim3OracleW : Nat → CycleOracle :=
  fun _ => { rp := "审核提示", outcomes := fun _ => RunOutcome.ok "报告" [],
             verdicts := fun _ => ReviewOutcome.ok true "" "同意" }

/-- Witness for C3: a concrete triage state with `max_rounds = 3` satisfies
the hypotheses, and the loop bound follows. -/
theorem claim3_router_loop_bound_witness :
    runCycles claim3OracleW claim3StateW ≤ claim3StateW.max_rounds :=
  (claim3_router_loop_bound claim3OracleW claim3StateW (by decide) (by decide)).2.2.2

def claim4ErrSlot : ExpertSlot :=
  { group_id := "group_1", messages := [aiMsg "初始消息"], times_deep_diagnosis := 2,
    report := "旧报告", evidences := ["旧证据"], is_satisfied := false,
    reinvestigate_reason := none, has_error := true }

def claim4SatSlot : ExpertSlot :=
  { claim4ErrSlot with is_satisfied := true, has_error := false }

/-- Claim C4 (code bug): the expert runner skips a slot whose `is_satisfied`
flag is set, but it does NOT skip a slot whose `has_error` flag is set: on a
successful run it updates that slot — appending the response message,
replacing report and evidences, resetting `has_error` to `false` and
incrementing the round counter — although `schema.py` documents that an
errored expert takes part in no further state update. -/
theorem claim4_runner_error_skip :
    deep_export_node "group_1" claim4SatSlot (RunOutcome.ok "新报告" ["新证据"]) = none ∧
    deep_export_node "group_1" claim4ErrSlot (RunOutcome.ok "新报告" ["新证据"]) =
      some ({ claim4ErrSlot with
                messages := claim4ErrSlot.messages ++ [aiMsg "新报告"],
                evidences := ["新证据"],
                has_error := false,
                report := "新报告",
                times_deep_diagnosis := claim4ErrSlot.times_deep_diagnosis + 1 }, []) ∧
    deep_export_node "group_1" claim4ErrSlot (RunOutcome.ok "新报告" ["新证据"]) ≠ none :=
  ⟨rfl, rfl, by decide⟩

def claim5Slot : ExpertSlot :=
  { group_id := "group_1", messages := [], times_deep_diagnosis := 1,
    report := "修订报告", evidences := [], is_satisfied := false,
    reinvestigate_reason := none, has_error := false }

def claim5Verdict : String → ReviewOutcome := fun _ => ReviewOutcome.ok true "" "回复"

def claim5State : MDTState :=
  { messages := [], patient_portrait := "画像",
    expert_pool := [("group_1", claim5Slot)],
    blackboard := { published_reports := [("group_1", "初版报告")], conflicts := [],
                    common_understandings := [] },
    round_count := 2, max_rounds := 3, consensus_reached := false }

/-- Counterexample to C5: expert `group_1` is non-errored and unsatisfied and
its current report is `修订报告`, yet after the reviewer pass the blackboard
still holds the earlier entry `初版报告` — a revised report never replaces an
existing blackboard entry. -/
theorem claim5_publish_counterexample :
    getKey? (expert_reviewer_node "审核提示" claim5Verdict claim5State).blackboard.published_reports
        "group_1" = some "初版报告" ∧
    claim5Slot.report = "修订报告" ∧
    ("初版报告" : String) ≠ "修订报告" := by decide

/-- Claim C5 (amended): publication is write-once — after a reviewer pass the
blackboard entry of a non-error, non-satisfied expert `g` is its previous
entry when one exists, and `g`'s current report only when `g` had no entry
yet. -/
theorem claim5_publish_amended (rp : String) (verdict : String → ReviewOutcome)
    (s : MDTState) (g : String) (e : ExpertSlot)
    (hnd : (s.expert_pool.map Prod.fst).Nodup)
    (hmem : (g, e) ∈ s.expert_pool)
    (herr : e.has_error = false) (hsat : e.is_satisfied = false) :
    getKey? (expert_reviewer_node rp verdict s).blackboard.published_reports g =
      some ((getKey? s.blackboard.published_reports g).getD e.report) := by
  rw [reviewer_published_eq]
  exact publishReports_lookup s.expert_pool s.blackboard.published_reports g e hnd hmem herr hsat

def claim5WState : MDTState :=
  { claim5State with
      blackboard := { published_reports := [], conflicts := [],
                      common_understandings := [] } }

/-- Witness for C5 (amended): with an empty blackboard the pass publishes the
expert's current report. -/
theorem claim5_publish_amended_witness :
    getKey? (expert_reviewer_node "审核提示" claim5Verdict claim5WState).blackboard.published_reports
        "group_1" = some "修订报告" :=
  Eq.trans
    (claim5_publish_amended "审核提示" claim5Verdict claim5WState "group_1" claim5Slot
      (by decide) (by decide) (by decide) (by decide))
    (by decide)

def claim6Map : List (String × String) := [("g.1", "证据甲")]

/-- Counterexample to C6: resolution is not idempotent — the `<ref>` tags
stay in the body, so a second application finds them again and appends a
second evidence section. -/
theorem claim6_idempotence_counterexample :
    _resolve_evidence_references
        (_resolve_evidence_references "<ref>g.1</ref>" claim6Map) claim6Map ≠
      _resolve_evidence_references "<ref>g.1</ref>" claim6Map := by decide

/-- Claim C6 (amended): applying the resolver twice equals applying it once
exactly when the single application already leaves the text unchanged (no
referenced key is in the mapping); whenever a section is appended, the
`<ref>` tags remaining in the body make the second application append again.
-/
theorem claim6_idempotence_amended (t : String) (m : List (String × String)) :
    (_resolve_evidence_references (_resolve_evidence_references t m) m =
      _resolve_evidence_references t m) ↔
    _resolve_evidence_references t m = t := by
  constructor
  · intro h
    by_cases hcl : citedLines t m = []
    · rw [resolve_characterization t m, hcl]
      simp
    · exfalso
      have hchar := resolve_characterization t m
      rw [if_neg hcl] at hchar
      have hex : ∃ k, k ∈ dedupFirst [] (findRefs t.data) ∧ (getKey? m k).isSome = true := by
        by_contra hno
        push_neg at hno
        apply hcl
        unfold citedLines
        refine filterMap_nil_of_none _ _ ?_
        intro k hk
        have hns := hno k hk
        cases hg : getKey? m k with
        | none => rfl
        | some e => exact absurd (by rw [hg]; rfl) hns
      obtain ⟨k, hkd, hks⟩ := hex
      obtain ⟨e, hke⟩ := Option.isSome_iff_exists.mp hks
      have hkmem : k ∈ findRefs t.data := ((mem_dedupFirst [] (findRefs t.data) k).mp hkd).1
      have hdata : (_resolve_evidence_references t m).data =
          t.data ++ (evidenceSectionHeader.data ++
            (String.intercalate "\n" (citedLines t m)).data) := by
        rw [hchar, String.data_append, String.data_append, List.append_assoc]
      have hk2 : k ∈ findRefs (_resolve_evidence_references t m).data := by
        rw [hdata]
        exact mem_findRefs_append t.data.length t.data rfl _ k hkmem
      have hcl2 : citedLines (_resolve_evidence_references t m) m ≠ [] := by
        intro hnil
        unfold citedLines at hnil
        have hkd2 : k ∈ dedupFirst [] (findRefs (_resolve_evidence_references t m).data) :=
          (mem_dedupFirst [] _ k).mpr ⟨hk2, List.not_mem_nil k⟩
        have hnone := none_of_filterMap_nil _ _ hnil k hkd2
        rw [hke] at hnone
        exact absurd hnone (by simp)
      have hchar2 := resolve_characterization (_resolve_evidence_references t m) m
      rw [if_neg hcl2] at hchar2
      rw [hchar2] at h
      have hlen := congrArg String.length h
      rw [String.length_append, String.length_append] at hlen
      have hhdr : 0 < evidenceSectionHeader.length := by decide
      omega
  · intro h
    rw [h]
    exact h

/-- Counterexample to C7: the per-expert pre-processing never rewrites a
legacy numeric `<ref>1</ref>` tag into the stable `<ref>group_id.1</ref>`
form — it appends a `[1] evidence` section and leaves the bare numeric tag
in the body (so the output still matches the numeric scanner and contains no
`ident.digits` reference at all). -/
theorem claim7_numeric_rewrite_counterexample :
    process_expert_report_references "<ref>1</ref>" ["证据一"] =
      "<ref>1</ref>" ++ evidenceSectionHeader ++ "[1] 证据一" ∧
    findNumRefs (process_expert_report_references "<ref>1</ref>" ["证据一"]).data ≠ [] ∧
    findRefs (process_expert_report_references "<ref>1</ref>" ["证据一"]).data = [] := by
  decide

/-- Claim C7 (amended): the per-expert pre-processing resolves legacy numeric
`<ref>N</ref>` tags by appending one line `[N] evidence` per distinct
in-range index (ascending), leaving the body — including the numeric tags —
unchanged; out-of-range indices contribute no line, and a text with no
numeric tag is returned unchanged. -/
theorem claim7_numeric_rewrite_amended (t : String) (evidences : List String) :
    (process_expert_report_references t evidences =
      if numCitedLines t evidences = [] then t
      else t ++ evidenceSectionHeader ++
        String.intercalate "\n" (numCitedLines t evidences)) ∧
    (findNumRefs t.data = [] → process_expert_report_references t evidences = t) := by
  refine ⟨process_characterization t evidences, ?_⟩
  intro h
  have h2 : numCitedLines t evidences = [] := by
    unfold numCitedLines
    rw [h]
    rfl
  rw [process_characterization, h2]
  simp

instance patientInfoDecEq : DecidableEq PatientInfo := inferInstance

instance patientInfoProdDecEq : DecidableEq (PatientInfo × Nat) := inferInstance

instance exceptDecEq {ε α : Type} [DecidableEq ε] [DecidableEq α] :
    DecidableEq (Except ε α) := fun x y =>
  match x, y with
  | Except.error a, Except.error b =>
    if h : a = b then Decidable.isTrue (by rw [h])
    else Decidable.isFalse (fun hc => h (Except.noConfusion hc id))
  | Except.error _, Except.ok _ => Decidable.isFalse (fun hc => Except.noConfusion hc)
  | Except.ok _, Except.error _ => Decidable.isFalse (fun hc => Except.noConfusion hc)
  | Except.ok a, Except.ok b =>
    if h : a = b then Decidable.isTrue (by rw [h])
    else Decidable.isFalse (fun hc => h (Except.noConfusion hc id))

def claim8Rng : Nat → String := fun _ => "QQQQ"

def claim8Payload : List (String × List Rec) :=
  [("symptoms", [[("id", "AAAA")], [("id", "AAAA"), ("发热", "有")]])]

def claim8Expected : PatientInfo :=
  [("base_info", []),
   ("symptoms", [[("id", "AAAA"), ("t_time", "t0")],
                 [("id", "AAAA"), ("发热", "有"), ("t_time", "t0")]]),
   ("vitals", []), ("exams", []), ("medications", []),
   ("family_history", []), ("past_medical_history", []), ("others", [])]

/-- Counterexample to C8: id uniqueness is not enforced by the upsert — the
`index_by_id` snapshot is taken before the record loop, so a payload that
carries the same explicit id `AAAA` twice into an empty bucket appends two
records with the same id, and the resulting sequence's identifiers are not
pairwise distinct. -/
theorem claim8_id_uniqueness_counterexample :
    upsert_patient_facts claim8Rng "t0" [] claim8Payload 0 =
      Except.ok (claim8Expected, 0) ∧
    ¬ (idsOf (bucketOf claim8Expected "symptoms")).Nodup := by decide

/-- Claim C8 (amended): the generator part holds — a generated id is outside
`existing_ids`, produced after skipping only colliding draws, generation
fails after 1000 colliding attempts, the alphabet has 32 distinct characters
without `0`, `1`, `I`, `O`, and a draw from that alphabet of length 4 yields
a 4-character id over it.  Id uniqueness after an upsert holds only
conditionally: payload bucket names must be distinct, the stored buckets
must start with distinct ids, record keys must be duplicate-free, and every
payload record carrying a non-empty explicit id must match an existing
record of its bucket. -/
theorem claim8_id_uniqueness_amended :
    (∀ (rng : Nat → String) (pos : Nat) (existing : List String) (g : String) (pos₂ : Nat),
        generate_short_uuid rng pos existing = Except.ok (g, pos₂) →
        g ∉ existing ∧ ∃ k, k < 1000 ∧ g = rng (pos + k) ∧
          ∀ j, j < k → rng (pos + j) ∈ existing) ∧
    (∀ (rng : Nat → String) (pos : Nat) (existing : List String),
        (∀ k, k < 1000 → rng (pos + k) ∈ existing) →
        generate_short_uuid rng pos existing = Except.error ()) ∧
    (shortAlphabet.length = 32 ∧ shortAlphabet.data.Nodup ∧
      '0' ∉ shortAlphabet.data ∧ '1' ∉ shortAlphabet.data ∧
      'I' ∉ shortAlphabet.data ∧ 'O' ∉ shortAlphabet.data) ∧
    (∀ (rng : Nat → String) (pos : Nat) (existing : List String) (g : String) (pos₂ : Nat),
        (∀ n : Nat, (rng n).length = 4 ∧ ∀ c ∈ (rng n).data, c ∈ shortAlphabet.data) →
        generate_short_uuid rng pos existing = Except.ok (g, pos₂) →
        g.length = 4 ∧ ∀ c ∈ g.data, c ∈ shortAlphabet.data) ∧
    (∀ (rng : Nat → String) (now : String) (info : PatientInfo)
        (payload : List (String × List Rec)) (pos : Nat) (info₂ : PatientInfo) (pos₂ : Nat),
        (payload.map Prod.fst).Nodup →
        (∀ b, (idsOf (bucketOf info b)).Nodup) →
        (∀ p ∈ payload, ∀ r ∈ p.2, (r.map Prod.fst).Nodup) →
        (∀ p ∈ payload, ∀ r ∈ p.2, ∀ rid, getKey? r "id" = some rid → rid ≠ "" →
          rid ∈ idsOf (bucketOf info p.1)) →
        upsert_patient_facts rng now info payload pos = Except.ok (info₂, pos₂) →
        ∀ b, (idsOf (bucketOf info₂ b)).Nodup) := by
  refine ⟨?_, ?_, by decide, ?_, ?_⟩
  · intro rng pos existing g pos₂ h
    obtain ⟨h1, k, hk, hg, -, hall⟩ := genLoop_ok_spec rng 1000 pos existing g pos₂ h
    exact ⟨h1, k, hk, hg, hall⟩
  · intro rng pos existing hall
    exact genLoop_exhaust rng 1000 pos existing hall
  · intro rng pos existing g pos₂ halpha h
    obtain ⟨-, k, -, hg, -, -⟩ := genLoop_ok_spec rng 1000 pos existing g pos₂ h
    rw [hg]
    exact halpha (pos + k)
  · intro rng now info payload pos info₂ pos₂ h1 h2 h3 h4 h5
    have h2e : ∀ b, (idsOf (bucketOf (ensureBuckets info) b)).Nodup := by
      intro b
      rw [bucketOf_ensureBuckets]
      exact h2 b
    have h4e : ∀ p ∈ payload, ∀ r ∈ p.2, ∀ rid, getKey? r "id" = some rid → rid ≠ "" →
        rid ∈ idsOf (bucketOf (ensureBuckets info) p.1) := by
      intro p hp r hr rid hid hne
      rw [bucketOf_ensureBuckets]
      exact h4 p hp r hr rid hid hne
    exact upsertBuckets_nodup rng now payload (ensureBuckets info) pos info₂ pos₂
      h1 h2e h3 h4e h5

/-- Claim C9: each reviewer pass inserts a fresh human message carrying the
patient portrait at position 1 of every reviewed expert's message list (and
then only appends); no transformation of the per-slot trace model removes
messages, so after a run whose acts review the expert `k` times the list
holds exactly `k` copies of the portrait message; and the reviewer node's
effect on a reviewed slot's messages is exactly one reviewed act of the
trace model. -/
theorem claim9_portrait_accumulation :
    (∀ (portrait rp ob : String) (msgs : List Msg),
        reviewInjectMsgs portrait rp ob msgs =
          msgs.take 1 ++ portraitMsg portrait ::
            (msgs.drop 1 ++ [humanMsg (otherMsgContent ob), humanMsg rp])) ∧
    (∀ (portrait : String) (act : RoundAct) (msgs : List Msg),
        actPromptOk portrait act = true →
        (applyAct portrait msgs act).count (portraitMsg portrait) =
          msgs.count (portraitMsg portrait) + (if isReviewAct act then 1 else 0)) ∧
    (∀ (portrait initial : String) (acts : List RoundAct),
        (∀ a ∈ acts, actPromptOk portrait a = true) →
        (applyActs portrait acts [aiMsg initial]).count (portraitMsg portrait) =
          reviewedCount acts) ∧
    (∀ (rp : String) (verdict : String → ReviewOutcome) (s : MDTState) (g : String)
        (e : ExpertSlot),
        getKey? s.expert_pool g = some e → e.has_error = false → e.is_satisfied = false →
        ∃ e', getKey? (expert_reviewer_node rp verdict s).expert_pool g = some e' ∧
          e'.messages = match verdict g with
            | ReviewOutcome.ok sat reason resp =>
              applyAct s.patient_portrait e.messages
                (RoundAct.reviewed (otherReportsBlock s.expert_pool g) rp sat reason resp)
            | ReviewOutcome.failure =>
              applyAct s.patient_portrait e.messages
                (RoundAct.reviewedFail (otherReportsBlock s.expert_pool g) rp)) := by
  refine ⟨?_, countPortrait_applyAct, ?_, reviewer_slot_messages⟩
  · intro portrait rp ob msgs
    unfold reviewInjectMsgs pyInsert
    simp [List.append_assoc]
  · intro portrait initial acts hok
    rw [countPortrait_applyActs portrait acts [aiMsg initial] hok,
      count_singleton_ne _ _ (aiMsg_ne_portrait initial portrait)]
    omega

theorem upsertBucket_single (rng : Nat → String) (now : String) (lst : List Rec) (r : Rec)
    (pos : Nat) :
    upsertBucket rng now lst [r] pos =
      match upsertStep rng now (idsOf lst) lst (idsOf lst) pos r with
      | Except.error _ => Except.error ()
      | Except.ok (lst₂, _, pos₂) => Except.ok (lst₂, pos₂) := by
  have h0 : upsertBucket rng now lst [r] pos =
      upsertRecords rng now (idsOf lst) lst [r] (idsOf lst) pos := rfl
  rw [h0]
  cases hstep : upsertStep rng now (idsOf lst) lst (idsOf lst) pos r with
  | error e =>
    unfold upsertRecords
    rw [hstep]
  | ok trip =>
    obtain ⟨lst₂, ids₂, pos₂⟩ := trip
    unfold upsertRecords
    rw [hstep]
    rfl

theorem upsert_single_eq (rng : Nat → String) (now : String) (info : PatientInfo)
    (b : String) (r : Rec) (pos : Nat) (hb : b ≠ "base_info") :
    upsert_patient_facts rng now info [(b, [r])] pos =
      match upsertStep rng now (idsOf (bucketOf info b)) (bucketOf info b)
          (idsOf (bucketOf info b)) pos r with
      | Except.error _ => Except.error ()
      | Except.ok (lst₂, _, pos₂) => Except.ok (setKey (ensureBuckets info) b lst₂, pos₂) := by
  have h0 : upsert_patient_facts rng now info [(b, [r])] pos =
      upsertBuckets rng now (ensureBuckets info) [(b, [r])] pos := rfl
  rw [h0]
  unfold upsertBuckets
  rw [if_neg (fun hc => hb hc.1), bucketOf_ensureBuckets, upsertBucket_single]
  cases hstep : upsertStep rng now (idsOf (bucketOf info b)) (bucketOf info b)
      (idsOf (bucketOf info b)) pos r with
  | error e => rfl
  | ok trip =>
    obtain ⟨lst₂, ids₂, pos₂⟩ := trip
    rfl

def claim10Rng : Nat → String := fun _ => "AAAA"

def claim10Payload : List (String × List Rec) :=
  [("symptoms", [[("id", "ZZZZ"), ("咳嗽", "三周")]])]

def claim10Expected : PatientInfo :=
  [("base_info", []),
   ("symptoms", [[("id", "ZZZZ"), ("咳嗽", "三周"), ("t_time", "t1")]]),
   ("vitals", []), ("exams", []), ("medications", []),
   ("family_history", []), ("past_medical_history", []), ("others", [])]

/-- Counterexample to C10: a payload record with the explicit id `ZZZZ` that
matches no existing record is appended keeping `ZZZZ` — not with a freshly
generated identifier: the generator is never consulted (the cursor stays at
0) and the stored id differs from what the generator would have produced. -/
theorem claim10_upsert_counterexample :
    upsert_patient_facts claim10Rng "t1" [] claim10Payload 0 =
      Except.ok (claim10Expected, 0) ∧
    idsOf (bucketOf claim10Expected "symptoms") = ["ZZZZ"] ∧
    ("ZZZZ" : String) ≠ claim10Rng 0 := by decide

/-- Claim C10 (amended): a successful upsert leaves every bucket not named in
the payload unchanged and, when record keys are duplicate-free, removes no
existing record and changes no existing record's id (the old ids are exactly
the ids of the first `old.length` entries).  For a single-record payload
bucket: a record whose non-empty id matches an existing record's id merges
its fields into the last such record in place, refreshing `t_time`; a record
whose non-empty id matches nothing is appended KEEPING its provided id; and
a record without an id is appended with a freshly generated id. -/
theorem claim10_upsert_amended :
    (∀ (rng : Nat → String) (now : String) (info : PatientInfo)
        (payload : List (String × List Rec)) (pos : Nat) (info₂ : PatientInfo) (pos₂ : Nat),
        upsert_patient_facts rng now info payload pos = Except.ok (info₂, pos₂) →
        ∀ b, b ∉ payload.map Prod.fst → bucketOf info₂ b = bucketOf info b) ∧
    (∀ (rng : Nat → String) (now : String) (info : PatientInfo)
        (payload : List (String × List Rec)) (pos : Nat) (info₂ : PatientInfo) (pos₂ : Nat),
        (∀ p ∈ payload, ∀ r ∈ p.2, (r.map Prod.fst).Nodup) →
        upsert_patient_facts rng now info payload pos = Except.ok (info₂, pos₂) →
        ∀ b, ((bucketOf info₂ b).take (bucketOf info b).length).map getId =
            (bucketOf info b).map getId ∧
          (bucketOf info b).length ≤ (bucketOf info₂ b).length) ∧
    (∀ (rng : Nat → String) (now : String) (info : PatientInfo) (b : String) (r : Rec)
        (pos : Nat) (info₂ : PatientInfo) (pos₂ : Nat) (rid : String),
        b ≠ "base_info" → getKey? r "id" = some rid → rid ≠ "" →
        rid ∈ idsOf (bucketOf info b) →
        upsert_patient_facts rng now info [(b, [r])] pos = Except.ok (info₂, pos₂) →
        bucketOf info₂ b =
          updateLastById (bucketOf info b) rid
            (fun ex => setKey (dictUpdate ex r) "t_time" now) ∧ pos₂ = pos) ∧
    (∀ (rng : Nat → String) (now : String) (info : PatientInfo) (b : String) (r : Rec)
        (pos : Nat) (info₂ : PatientInfo) (pos₂ : Nat) (rid : String),
        b ≠ "base_info" → getKey? r "id" = some rid → rid ≠ "" →
        rid ∉ idsOf (bucketOf info b) →
        upsert_patient_facts rng now info [(b, [r])] pos = Except.ok (info₂, pos₂) →
        bucketOf info₂ b = bucketOf info b ++ [setKey r "t_time" now] ∧ pos₂ = pos) ∧
    (∀ (rng : Nat → String) (now : String) (info : PatientInfo) (b : String) (r : Rec)
        (pos : Nat) (info₂ : PatientInfo) (pos₂ : Nat),
        b ≠ "base_info" → getKey? r "id" = none →
        upsert_patient_facts rng now info [(b, [r])] pos = Except.ok (info₂, pos₂) →
        ∃ g, generate_short_uuid rng pos (idsOf (bucketOf info b)) = Except.ok (g, pos₂) ∧
          bucketOf info₂ b =
            bucketOf info b ++ [setKey (setKey r "id" g) "t_time" now]) := by
  refine ⟨?_, ?_, ?_, ?_, ?_⟩
  · intro rng now info payload pos info₂ pos₂ h b hb
    have := upsertBuckets_frame rng now payload (ensureBuckets info) pos info₂ pos₂ h b hb
    rw [this, bucketOf_ensureBuckets]
  · intro rng now info payload pos info₂ pos₂ hnd h b
    have hx := upsertBuckets_extends rng now payload (ensureBuckets info) pos info₂ pos₂ hnd h b
    rw [bucketOf_ensureBuckets] at hx
    exact hx
  · intro rng now info b r pos info₂ pos₂ rid hb hid hne hik hok
    rw [upsert_single_eq rng now info b r pos hb] at hok
    cases hstep : upsertStep rng now (idsOf (bucketOf info b)) (bucketOf info b)
        (idsOf (bucketOf info b)) pos r with
    | error e =>
      rw [hstep] at hok
      simp only [] at hok
      exact absurd hok (by simp)
    | ok trip =>
      obtain ⟨lst₂, ids₂, posB⟩ := trip
      rw [hstep] at hok
      simp only [] at hok
      rw [Except.ok.injEq, Prod.mk.injEq] at hok
      obtain ⟨h1, h2⟩ := hok
      rcases upsertStep_cases rng now (idsOf (bucketOf info b)) (bucketOf info b)
          (idsOf (bucketOf info b)) pos r lst₂ ids₂ posB hstep with
        ⟨rid', hid', hne', hik', hl, hi, hp⟩ | ⟨rid', hid', hne', hik', hl, hi, hp⟩ |
        ⟨g, hido, hg, hl, hi⟩
      · have hrr : rid' = rid := Option.some.inj (hid'.symm.trans hid)
        subst hrr
        constructor
        · rw [← h1, hl, bucketOf_setKey_self]
        · omega
      · have hrr : rid' = rid := Option.some.inj (hid'.symm.trans hid)
        rw [hrr] at hik'
        exact absurd hik hik'
      · rcases hido with hnone | hemp
        · rw [hid] at hnone
          exact Option.noConfusion hnone
        · rw [hid] at hemp
          injection hemp with hx
          exact absurd hx hne
  · intro rng now info b r pos info₂ pos₂ rid hb hid hne hik hok
    rw [upsert_single_eq rng now info b r pos hb] at hok
    cases hstep : upsertStep rng now (idsOf (bucketOf info b)) (bucketOf info b)
        (idsOf (bucketOf info b)) pos r with
    | error e =>
      rw [hstep] at hok
      simp only [] at hok
      exact absurd hok (by simp)
    | ok trip =>
      obtain ⟨lst₂, ids₂, posB⟩ := trip
      rw [hstep] at hok
      simp only [] at hok
      rw [Except.ok.injEq, Prod.mk.injEq] at hok
      obtain ⟨h1, h2⟩ := hok
      rcases upsertStep_cases rng now (idsOf (bucketOf info b)) (bucketOf info b)
          (idsOf (bucketOf info b)) pos r lst₂ ids₂ posB hstep with
        ⟨rid', hid', hne', hik', hl, hi, hp⟩ | ⟨rid', hid', hne', hik', hl, hi, hp⟩ |
        ⟨g, hido, hg, hl, hi⟩
      · have hrr : rid' = rid := Option.some.inj (hid'.symm.trans hid)
        rw [hrr] at hik'
        exact absurd hik' hik
      · constructor
        · rw [← h1, hl, bucketOf_setKey_self]
        · omega
      · rcases hido with hnone | hemp
        · rw [hid] at hnone
          exact Option.noConfusion hnone
        · rw [hid] at hemp
          injection hemp with hx
          exact absurd hx hne
  · intro rng now info b r pos info₂ pos₂ hb hid hok
    rw [upsert_single_eq rng now info b r pos hb] at hok
    cases hstep : upsertStep rng now (idsOf (bucketOf info b)) (bucketOf info b)
        (idsOf (bucketOf info b)) pos r with
    | error e =>
      rw [hstep] at hok
      simp only [] at hok
      exact absurd hok (by simp)
    | ok trip =>
      obtain ⟨lst₂, ids₂, posB⟩ := trip
      rw [hstep] at hok
      simp only [] at hok
      rw [Except.ok.injEq, Prod.mk.injEq] at hok
      obtain ⟨h1, h2⟩ := hok
      rcases upsertStep_cases rng now (idsOf (bucketOf info b)) (bucketOf info b)
          (idsOf (bucketOf info b)) pos r lst₂ ids₂ posB hstep with
        ⟨rid', hid', hne', hik', hl, hi, hp⟩ | ⟨rid', hid', hne', hik', hl, hi, hp⟩ |
        ⟨g, hido, hg, hl, hi⟩
      · rw [hid] at hid'
        exact Option.noConfusion hid'
      · rw [hid] at hid'
        exact Option.noConfusion hid'
      · refine ⟨g, ?_, ?_⟩
        · rw [← h2]
          exact hg
        · rw [← h1, hl, bucketOf_setKey_self]

end DeepRare
